import Mathlib

/-!
# Cluster resolution of the hammer-it corrector

A shallow embedding of `center`, `assign` and `subcluster` from
`assembler/src/hammer-it/main.cpp`, together with the statements of the
natural-language specification that concern them.

Conventions of the embedding.

* A finite `double` is the rational it denotes.  Every arithmetic operation on
  doubles rounds its exact result through a rounding function `rnd`, a
  parameter of `center` and of everything that calls it; `roundDouble` is the
  rounding of IEEE 754 binary64 (to nearest, ties to even), and the identity
  gives exact arithmetic.  Each operation is rounded on its own: no fused
  multiply-add and no extended precision.  Infinities and NaN are not
  represented.  The
  threshold `sqrt(std::numeric_limits<double>::epsilon())` is `2⁻²⁶`, itself a
  double.
* `std::vector` is `List`, `size_t` and `unsigned` positions are `Nat`.
* `kmer_data[i]` at a position outside the table is undefined in the source; the
  embedding returns a default record there and every statement that depends on
  the access carries the corresponding range hypothesis.
* The OpenMP loop of `main` is run sequentially in index order.
-/

namespace Hammer

/-- One symbol of a key: a nucleotide (2 bits) and a run length (6 bits).  These
are the row and column of the `4 × 64` score matrix of `center`. -/
structure HomopolymerRun where
  nucl : Fin 4
  len : Fin 64
deriving DecidableEq, Repr

instance : Inhabited HomopolymerRun := ⟨⟨0, 0⟩⟩

/-- A key `hammer::HKMer`: a fixed-length array of `K` symbols (`hammer::K` is a
parameter of the development). -/
abbrev HKMer (K : Nat) := Fin K → HomopolymerRun

/-- The statistics record `hammer::KMerStat` with the four fields used by
`main.cpp`. -/
structure KMerStat (K : Nat) where
  count : Nat
  kmer : HKMer K
  qual : ℚ
  changeto : Nat

instance (K : Nat) : Inhabited (KMerStat K) := ⟨⟨0, fun _ => default, 1, 0⟩⟩

/-- Modelled from the spec: the three-argument constructor
`hammer::KMerStat(count, kmer, qual)`, whose declaration is not among the
sources.  The spec says a redirect is "initially self-referential (identity)",
so the constructor is given the position `self` the record will occupy. -/
def KMerStat.init {K : Nat} (count : Nat) (kmer : HKMer K) (qual : ℚ) (self : Nat) :
    KMerStat K :=
  ⟨count, kmer, qual, self⟩

/-- The table `KMerData`: the stored records and the key-to-position lookup. -/
structure KMerData (K : Nat) where
  data : List (KMerStat K)
  index : HKMer K → Nat

namespace KMerData

variable {K : Nat}

/-- Number of records, `kmer_data.size()`. -/
def size (d : KMerData K) : Nat := d.data.length

/-- Record access, `kmer_data[i]`. -/
def get (d : KMerData K) (i : Nat) : KMerStat K := d.data.getD i default

/-- Key lookup, `kmer_data.seq_idx(c)`: a position for every key; the caller
compares the key stored there with `c` to learn whether `c` is present. -/
def seq_idx (d : KMerData K) (c : HKMer K) : Nat := d.index c

/-- Modelled from the spec: `KMerData::push_back`, whose definition is not among
the sources.  The spec's `append(key) -> new position` adds the record behind
the existing ones (positions stay dense) and, by the invariant "every live
IndexEntry is reachable by exactly one position in the index's key→position
map", registers its key at the new position. -/
def push_back (d : KMerData K) (k : KMerStat K) : KMerData K × Nat :=
  (⟨d.data ++ [k], Function.update d.index k.kmer d.data.length⟩, d.data.length)

/-- The write `kmer_data[j].changeto = idx`. -/
def setChangeto (d : KMerData K) (j idx : Nat) : KMerData K :=
  ⟨d.data.modify (fun s => { s with changeto := idx }) j, d.index⟩

/-- The contract of the lookup: every stored key is found at its own position,
and the lookup answers with a valid position for every key. -/
structure WF (d : KMerData K) : Prop where
  lookup : ∀ p, p < d.size → d.seq_idx (d.get p).kmer = p
  inRange : ∀ c, d.seq_idx c < d.size

/-- The loop `for j: kmer_data[cluster[j]].changeto = idx` of `assign`. -/
def redirectAll (d : KMerData K) (cluster : List Nat) (idx : Nat) : KMerData K :=
  cluster.foldl (fun acc j => acc.setChangeto j idx) d

end KMerData

variable {K : Nat}

/-- The comparator `CountCmp::operator()`. -/
def CountCmp (d : KMerData K) (lhs rhs : Nat) : Prop :=
  (d.get lhs).count > (d.get rhs).count

instance (d : KMerData K) : DecidableRel (CountCmp d) :=
  fun _ _ => inferInstanceAs (Decidable (_ > _))

/-- The score matrix of `center`, `numeric::matrix<double> scores(4, 64, 0)`. -/
abbrev Scores := Fin 4 → Fin 64 → ℚ

/-- The integer `⌊log₂ n⌋` of a positive natural number, by repeated halving. -/
def log2Fuel : Nat → Nat → Nat
  | 0, _ => 0
  | fuel + 1, n => if 2 ≤ n then log2Fuel fuel (n / 2) + 1 else 0

/-- The power `2 ^ e` for an integer exponent. -/
def pow2 (e : Int) : ℚ :=
  if 0 ≤ e then ((2 ^ e.toNat : Nat) : ℚ) else 1 / ((2 ^ (-e).toNat : Nat) : ℚ)

/-- The integer `⌊log₂ x⌋` of a positive rational. -/
def floorLog2 (x : ℚ) : Int :=
  let e : Int := (log2Fuel x.num.natAbs x.num.natAbs : Int) - (log2Fuel x.den x.den : Int)
  if pow2 e ≤ x then e else e - 1

/-- Rounding to the nearest integer, a tie going to the even one. -/
def roundEven (x : ℚ) : Int :=
  let f := Rat.floor x
  let r := x - (f : ℚ)
  if r < 1 / 2 then f else if 1 / 2 < r then f + 1 else if f % 2 = 0 then f else f + 1

/-- The rounding of IEEE 754 binary64 arithmetic: the nearest number with a
53-bit significand (spacing `2 ^ -1074` in the subnormal range), ties to even.
Results beyond the largest finite double are not turned into an infinity. -/
def roundDouble (x : ℚ) : ℚ :=
  if x = 0 then 0
  else
    let e := max (floorLog2 (if x < 0 then -x else x) - 52) (-1074)
    (roundEven (x / pow2 e) : ℚ) * pow2 e

/-- The update `scores(n, l) += w` in double arithmetic. -/
def addScore (rnd : ℚ → ℚ) (scores : Scores) (n : Fin 4) (l : Fin 64) (w : ℚ) : Scores :=
  fun a b => if a = n ∧ b = l then rnd (scores a b + w) else scores a b

/-- The value `k.count * (1 - k.qual)` in double arithmetic: the count is
converted, the difference and the product are rounded. -/
def vote (rnd : ℚ → ℚ) (k : KMerStat K) : ℚ :=
  rnd (rnd (k.count : ℚ) * rnd (1 - k.qual))

/-- The inner loop of `center` for symbol position `i`: every member adds
`count * (1 - qual)` to the cell of the symbol it carries at `i`. -/
def scoresAt (rnd : ℚ → ℚ) (d : KMerData K) (kmers : List Nat) (i : Fin K) : Scores :=
  kmers.foldl
    (fun scores j =>
      let k := d.get j
      addScore rnd scores (k.kmer i).nucl (k.kmer i).len (vote rnd k))
    (fun _ _ => 0)

/-- The fixed order in which the cells of the score matrix are visited: row by
row (nucleotide), and by run length inside a row. -/
def symbols : List HomopolymerRun :=
  (List.finRange 4).flatMap fun n => (List.finRange 64).map fun l => ⟨n, l⟩

/-- Modelled from the spec: `hammer::iontorrent::consensus(scores).first`, whose
definition is not among the sources.  The spec says "pick the symbol with the
highest accumulated weight; ties broken by a fixed symbol ordering": the cells
are scanned in the order of `symbols` and a cell replaces the current choice
only when its score is strictly larger. -/
def consensus (scores : Scores) : HomopolymerRun :=
  symbols.foldl
    (fun best s => if scores best.nucl best.len < scores s.nucl s.len then s else best)
    ⟨0, 0⟩

/-- The accumulated weight of symbol `s` at position `i`, in the words of the
spec: the sum, over the members carrying `s` at `i`, of `count × (1 − quality)`. -/
def weight (d : KMerData K) (kmers : List Nat) (i : Fin K) (s : HomopolymerRun) : ℚ :=
  ((kmers.filter fun j => (d.get j).kmer i = s).map fun j =>
    ((d.get j).count : ℚ) * (1 - (d.get j).qual)).sum

/-- The accumulated score of symbol `s` at position `i` as the program computes
it: starting from 0, each member carrying `s` at `i` adds its vote, in the order
of the member list, and the sum is rounded after every addition. -/
def score (rnd : ℚ → ℚ) (d : KMerData K) (kmers : List Nat) (i : Fin K) (s : HomopolymerRun) :
    ℚ :=
  (kmers.filter fun j => (d.get j).kmer i = s).foldl
    (fun acc j => rnd (acc + vote rnd (d.get j))) 0

/-- The function `center`: position by position, the consensus of the scores. -/
def center (rnd : ℚ → ℚ) (d : KMerData K) (kmers : List Nat) : HKMer K :=
  fun i => consensus (scoresAt rnd d kmers i)

/-- The function `assign`. -/
def assign (rnd : ℚ → ℚ) (d : KMerData K) (cluster : List Nat) : KMerData K × Bool :=
  let c := center rnd d cluster
  let idx := d.seq_idx c
  let r : KMerData K × Nat × Bool :=
    if (d.get idx).kmer ≠ c then
      let p := d.push_back (KMerStat.init 0 c 1 d.size)
      (p.1, p.2, true)
    else (d, idx, false)
  (r.1.redirectAll cluster r.2.1, r.2.2)

/-- The initial value of `dist` in `subcluster`,
`std::numeric_limits<unsigned>::max()`. -/
def UINT_MAX : Nat := 2 ^ 32 - 1

/-- The high-confidence threshold of `subcluster`,
`sqrt(std::numeric_limits<double>::epsilon())`, which is `2⁻²⁶`. -/
def sqrtEps : ℚ := 1 / 2 ^ 26

/-- The fatal outcome of `subcluster`: a failed `VERIFY(cidx < k)`. -/
inductive Fault where
  | internalInconsistency
deriving DecidableEq, Repr

/-- The call `std::sort(cluster.begin(), cluster.end(), CountCmp(kmer_data))`:
the result is ordered so that no element compares `CountCmp`-before an element
that precedes it. -/
def sortByCount (d : KMerData K) (cluster : List Nat) : List Nat :=
  cluster.insertionSort fun a b => ¬ CountCmp d b a

/-- The loop that computes `k`: one is added for every member whose quality is
below the threshold. -/
def seedCount (d : KMerData K) (cluster : List Nat) : Nat :=
  cluster.foldl (fun k i => k + if (d.get i).qual < sqrtEps then 1 else 0) 0

/-- The inner loop over the seeds `j < k` for the member at position `i` of the
cluster: the pair `(cidx, dist)` it ends with.  `dist` is
`hammer::distanceHKMer`, a parameter of the development. -/
def closest (dist : HKMer K → HKMer K → Nat) (d : KMerData K) (cluster : List Nat)
    (k i : Nat) : Nat × Nat :=
  (List.range k).foldl
    (fun st j =>
      let cdist := dist (d.get (cluster.getD i 0)).kmer (d.get (cluster.getD j 0)).kmer
      if cdist < st.2 then (j, cdist) else st)
    (k, UINT_MAX)

/-- The loop over the members `i ≥ k`: each is pushed onto `idx[cidx]` after
`VERIFY(cidx < k)`. -/
def place (dist : HKMer K → HKMer K → Nat) (d : KMerData K) (cluster : List Nat) (k : Nat) :
    List Nat → List (List Nat) → Except Fault (List (List Nat))
  | [], idx => .ok idx
  | i :: rest, idx =>
    let cidx := (closest dist d cluster k i).1
    if cidx < k then
      place dist d cluster k rest (idx.modify (fun sub => sub ++ [cluster.getD i 0]) cidx)
    else .error .internalInconsistency

/-- The construction of `idx` in `subcluster` (the block "Find the closest
center"): `k` seeded sub-clusters, then every remaining member placed. -/
def subclusters (dist : HKMer K → HKMer K → Nat) (d : KMerData K) (cluster : List Nat)
    (k : Nat) : Except Fault (List (List Nat)) :=
  place dist d cluster k (List.range' k (cluster.length - k))
    ((List.range k).map fun i => [cluster.getD i 0])

/-- The final loop of `subcluster` over `idx`: one `assign(kmer_data, cluster)`
per sub-cluster, counting the calls that return `true`.  The loop variable
`subcluster` is bound in the source but not used by the call. -/
def assignEach (rnd : ℚ → ℚ) (cluster : List Nat) :
    List (List Nat) → KMerData K → Nat → KMerData K × Nat
  | [], d, nonread => (d, nonread)
  | _subcluster :: rest, d, nonread =>
    let a := assign rnd d cluster
    assignEach rnd cluster rest a.1 (if a.2 then nonread + 1 else nonread)

/-- The function `subcluster`.  The result is the table, the cluster as the call
leaves it (sorted in place), and the returned count. -/
def subcluster (rnd : ℚ → ℚ) (dist : HKMer K → HKMer K → Nat) (d : KMerData K)
    (cluster : List Nat) : Except Fault (KMerData K × List Nat × Nat) :=
  let cluster := sortByCount d cluster
  let k := seedCount d cluster
  if k ≤ 1 then
    let a := assign rnd d cluster
    .ok (a.1, cluster, if a.2 then 1 else 0)
  else
    match subclusters dist d cluster k with
    | .error e => .error e
    | .ok idx =>
      let r := assignEach rnd cluster idx d 0
      .ok (r.1, cluster, r.2)

/-- The loop of `main` over `classes`: `nonread += subcluster(kmer_data, cluster)`
for every cluster in turn. -/
def subclusterAll (rnd : ℚ → ℚ) (dist : HKMer K → HKMer K → Nat) :
    KMerData K → List (List Nat) → Except Fault (KMerData K × List (List Nat) × Nat)
  | d, [] => .ok (d, [], 0)
  | d, cluster :: rest =>
    match subcluster rnd dist d cluster with
    | .error e => .error e
    | .ok (d1, cluster1, n1) =>
      match subclusterAll rnd dist d1 rest with
      | .error e => .error e
      | .ok (d2, rest2, n2) => .ok (d2, cluster1 :: rest2, n1 + n2)

/-- The table `e` keeps every record of `d` up to its redirect: it is at least
as long, and key, count and quality agree at every position of `d`. -/
structure KMerData.Extends (d e : KMerData K) : Prop where
  size_le : d.size ≤ e.size
  kmer : ∀ p, p < d.size → (e.get p).kmer = (d.get p).kmer
  count : ∀ p, p < d.size → (e.get p).count = (d.get p).count
  qual : ∀ p, p < d.size → (e.get p).qual = (d.get p).qual

/-- The cluster `cluster` is resolved at `idx` in `d`: `idx` is a position of
the table, it holds the consensus key of the cluster, and every member
redirects to it. -/
def Resolved (rnd : ℚ → ℚ) (d : KMerData K) (cluster : List Nat) (idx : Nat) : Prop :=
  idx < d.size ∧ (d.get idx).kmer = center rnd d cluster ∧
    ∀ m ∈ cluster, (d.get m).changeto = idx

/-- The redirects of a table, position by position. -/
def KMerData.redirects (d : KMerData K) : List Nat := d.data.map fun s => s.changeto

/-- The observable outcome of a call: the redirects of the resulting table, its
size, and the returned count; `none` after a failed `VERIFY`. -/
def outcome {α : Type} (r : Except Fault (KMerData K × α × Nat)) : Option (List Nat × Nat × Nat) :=
  match r with
  | .ok (d, _, n) => some (d.redirects, d.size, n)
  | .error _ => none

/-- The single-hop property of the spec, as a check on a table: at every
position `p` the entry at `redirect(p)` redirects to itself. -/
def singleHop (d : KMerData K) : Bool :=
  (List.range d.size).all fun p =>
    decide ((d.get (d.get p).changeto).changeto = (d.get p).changeto)

/-! ### Concrete tables used by the examples -/

/-- Modelled from the spec: `hammingDistance(a, b)`, "number of mismatched symbol
positions".  It instantiates the distance parameter in the examples. -/
def hammingDistance (a b : HKMer K) : Nat :=
  ((List.finRange K).filter fun i => a i ≠ b i).length

/-- The symbol `A` (nucleotide 0, run length 1). -/
def runA : HomopolymerRun := ⟨0, 1⟩
/-- The symbol `C` (nucleotide 1, run length 1). -/
def runC : HomopolymerRun := ⟨1, 1⟩
/-- The symbol `G` (nucleotide 2, run length 1). -/
def runG : HomopolymerRun := ⟨2, 1⟩
/-- The symbol `T` (nucleotide 3, run length 1). -/
def runT : HomopolymerRun := ⟨3, 1⟩

/-- The key `AAAA`. -/
def keyAAAA : HKMer 4 := fun _ => runA
/-- The key `AAAT`. -/
def keyAAAT : HKMer 4 := fun i => if i = 3 then runT else runA

/-- The table of the scenario: `AAAA` with count 100 and error probability 0.01
at position 0, `AAAT` with count 3 and error probability 0.4 at position 1. -/
def scenarioIndex : KMerData 4 :=
  ⟨[⟨100, keyAAAA, 1 / 100, 0⟩, ⟨3, keyAAAT, 2 / 5, 1⟩], fun c => if c = keyAAAT then 1 else 0⟩

/-- Two certain keys in one cluster: `AAAA` with count 5 at position 0 and `AAAT`
with count 3 at position 1, both with error probability 0. -/
def twoSeedIndex : KMerData 4 :=
  ⟨[⟨5, keyAAAA, 0, 0⟩, ⟨3, keyAAAT, 0, 1⟩], fun c => if c = keyAAAT then 1 else 0⟩

/-- Three keys of length 1: `A` with count 10 and error probability 1/2, `C` with
count 5 and error probability 0, `G` with count 1 and error probability 0. -/
def countVsQualIndex : KMerData 1 :=
  ⟨[⟨10, fun _ => runA, 1 / 2, 0⟩, ⟨5, fun _ => runC, 0, 1⟩, ⟨1, fun _ => runG, 0, 2⟩],
    fun c => if c = (fun _ => runC) then 1 else if c = (fun _ => runG) then 2 else 0⟩

/-- A key of length 3 from its three symbols. -/
def key3 (x y z : HomopolymerRun) : HKMer 3 :=
  fun i => if i = 0 then x else if i = 1 then y else z

/-- The records of `chainIndex`: thirteen keys of length 3, all with error
probability 1/2.  Positions 0 to 10 form one Hamming cluster: nine keys of
count 10 (`ATG`, `ATGG`, `ATTGG`, `GCG`, `GCAA`, `GGCAA`, `GGCCA`, `AACCA`,
`AACCCA`) joined by two keys of count 1 (`GTG` at 3, `GGCCAA` at 7).  Positions
11 and 12 form another: `ACA` with count 1 and `ACGGG` with count 10. -/
def chainData : List (KMerStat 3) :=
  [⟨10, key3 ⟨0, 1⟩ ⟨3, 1⟩ ⟨2, 1⟩, 1 / 2, 0⟩,
   ⟨10, key3 ⟨0, 1⟩ ⟨3, 1⟩ ⟨2, 2⟩, 1 / 2, 1⟩,
   ⟨10, key3 ⟨0, 1⟩ ⟨3, 2⟩ ⟨2, 2⟩, 1 / 2, 2⟩,
   ⟨1, key3 ⟨2, 1⟩ ⟨3, 1⟩ ⟨2, 1⟩, 1 / 2, 3⟩,
   ⟨10, key3 ⟨2, 1⟩ ⟨1, 1⟩ ⟨2, 1⟩, 1 / 2, 4⟩,
   ⟨10, key3 ⟨2, 1⟩ ⟨1, 1⟩ ⟨0, 2⟩, 1 / 2, 5⟩,
   ⟨10, key3 ⟨2, 2⟩ ⟨1, 1⟩ ⟨0, 2⟩, 1 / 2, 6⟩,
   ⟨1, key3 ⟨2, 2⟩ ⟨1, 2⟩ ⟨0, 2⟩, 1 / 2, 7⟩,
   ⟨10, key3 ⟨2, 2⟩ ⟨1, 2⟩ ⟨0, 1⟩, 1 / 2, 8⟩,
   ⟨10, key3 ⟨0, 2⟩ ⟨1, 2⟩ ⟨0, 1⟩, 1 / 2, 9⟩,
   ⟨10, key3 ⟨0, 2⟩ ⟨1, 3⟩ ⟨0, 1⟩, 1 / 2, 10⟩,
   ⟨1, key3 ⟨0, 1⟩ ⟨1, 1⟩ ⟨0, 1⟩, 1 / 2, 11⟩,
   ⟨10, key3 ⟨0, 1⟩ ⟨1, 1⟩ ⟨2, 3⟩, 1 / 2, 12⟩]

/-- The table over `chainData`; the lookup finds every stored key at its
position and answers 0 for any other key. -/
def chainIndex : KMerData 3 :=
  ⟨chainData, fun c =>
    if (chainData.map fun s => s.kmer).indexOf c < chainData.length then
      (chainData.map fun s => s.kmer).indexOf c
    else 0⟩

/-- The partition of the positions of `chainIndex` into its two Hamming
clusters. -/
def chainClasses : List (List Nat) := [[0, 1, 2, 3, 4, 5, 6, 7, 8, 9, 10], [11, 12]]

/-- Three keys of length 2: `AC` (count 2, error probability 0), `AG` (count 2,
error probability 0), `TT` (count 6, error probability 1/2).  The consensus of
the three is `AT`, which is not stored. -/
def chimeraIndex : KMerData 2 :=
  ⟨[⟨2, fun i => if i = 0 then runA else runC, 0, 0⟩,
    ⟨2, fun i => if i = 0 then runA else runG, 0, 1⟩,
    ⟨6, fun _ => runT, 1 / 2, 2⟩],
    fun c =>
      if c = (fun i => if i = 0 then runA else runG) then 1
      else if c = (fun _ => runT) then 2
      else 0⟩

end Hammer

/-!
# Index construction of the cap k-mer index

A shallow embedding of `CapKMerCounter`, `FillCoverageFromStream` and
`SortUniqueKMers` from `assembler/src/cap/cap_kmer_index.hpp`.

* A read is the list of its nucleotides; a stream is the list of its reads.
* The parallel loop over the streams is run sequentially in index order.
* `count_` is an unsigned machine integer of `w` bits (`w` is a parameter).
-/

namespace Cap

/-- A nucleotide. -/
abbrev Nucl := Fin 4

/-- A read: `r.sequence()`; `r.size()` and `seq.size()` are its length. -/
abbrev Read := List Nucl

/-- Modelled from the spec: `cap::LSeq` (longseq.hpp is not among the sources), a
"window of the configured length" `k` over a sequence, here at offset `pos`. -/
structure LSeq where
  seq : List Nucl
  k : Nat
  pos : Nat

/-- Modelled from the spec: the window at the start of a sequence, `LSeq(k, seq)`
and `seq.start<LSeq>(K)`. -/
def LSeq.start (k : Nat) (seq : List Nucl) : LSeq := ⟨seq, k, 0⟩

/-- Modelled from the spec: the symbols of the window, which are what the hash
and the equality of `LSeq` depend on. -/
def LSeq.key (s : LSeq) : List Nucl := (s.seq.drop s.pos).take s.k

/-- Modelled from the spec: `kmer.Shift()`, the next overlapping window. -/
def LSeq.Shift (s : LSeq) : LSeq := { s with pos := s.pos + 1 }

/-- The loop `do { storage_.insert(kmer); kmer.Shift(); } while (kmer.IsValid())`
of `CapKMerCounter`, for a window that can be shifted `n` more times before it
leaves the sequence.  `storage_` is a set, kept as a list without repetition. -/
def insertWindows (storage : List (List Nucl)) (kmer : LSeq) : Nat → List (List Nucl)
  | 0 => storage.insert kmer.key
  | n + 1 => insertWindows (storage.insert kmer.key) kmer.Shift n

/-- The body of the read loop of `CapKMerCounter` for one read. -/
def countRead (k : Nat) (storage : List (List Nucl)) (r : Read) : List (List Nucl) :=
  if r.length = 0 then storage
  else if r.length < k then storage
  else insertWindows storage (LSeq.start k r) (r.length - k)

/-- The constructor `CapKMerCounter(k, streams)`: the resulting `storage_`. -/
def CapKMerCounter (k : Nat) (streams : List (List Read)) : List (List Nucl) :=
  streams.foldl (fun storage stream => stream.foldl (countRead k) storage) []

/-- The part of `DeBruijnKMerIndex` used by the coverage pass: `K()`, the lookup
`seq_idx`, the test `contains(idx, kmer)` and the `count_` fields of `data_`. -/
structure DeBruijnKMerIndex where
  K : Nat
  seq_idx : List Nucl → Nat
  contains : Nat → List Nucl → Bool
  data_ : List Nat

/-- The fatal outcome of the coverage pass: a failed
`VERIFY(index.contains(idx, kmer))`. -/
inductive Abort where
  | verifyFailed
deriving DecidableEq, Repr

/-- The three statements `idx = index.seq_idx(kmer); VERIFY(index.contains(idx,
kmer)); index.data_[idx].count_ += 1` for a window with symbols `key`, with
`count_` of `w` bits. -/
def bump (w : Nat) (index : DeBruijnKMerIndex) (key : List Nucl) :
    Except Abort DeBruijnKMerIndex :=
  let idx := index.seq_idx key
  if index.contains idx key then
    .ok { index with data_ := index.data_.modify (fun c => (c + 1) % 2 ^ w) idx }
  else .error .verifyFailed

/-- The loop `for (j = K; j < seq.size(); ++j) { kmer.Shift(); ... }` of
`FillCoverageFromStream`, with `n` iterations left. -/
def bumpShifts (w : Nat) : Nat → LSeq → DeBruijnKMerIndex → Except Abort DeBruijnKMerIndex
  | 0, _, index => .ok index
  | n + 1, kmer, index =>
    match bump w index kmer.Shift.key with
    | .error e => .error e
    | .ok index1 => bumpShifts w n kmer.Shift index1

/-- The read loop of `FillCoverageFromStream`, from the current value of `rl`. -/
def fillLoop (w : Nat) : List Read → DeBruijnKMerIndex → Nat → Except Abort (Nat × DeBruijnKMerIndex)
  | [], index, rl => .ok (rl, index)
  | r :: rest, index, rl =>
    let rl := max rl r.length
    if r.length < index.K then fillLoop w rest index rl
    else
      match bump w index (LSeq.start index.K r).key with
      | .error e => .error e
      | .ok index1 =>
        match bumpShifts w (r.length - index.K) (LSeq.start index.K r) index1 with
        | .error e => .error e
        | .ok index2 => fillLoop w rest index2 rl

/-- The function `FillCoverageFromStream`: the returned `rl` and the index as the
call leaves it. -/
def FillCoverageFromStream (w : Nat) (stream : List Read) (index : DeBruijnKMerIndex) :
    Except Abort (Nat × DeBruijnKMerIndex) :=
  fillLoop w stream index 0

/-- The coverage loop of `BuildIndexFromStream` over all streams. -/
def fillAll (w : Nat) : List (List Read) → DeBruijnKMerIndex → Except Abort DeBruijnKMerIndex
  | [], index => .ok index
  | stream :: rest, index =>
    match FillCoverageFromStream w stream index with
    | .error e => .error e
    | .ok r => fillAll w rest r.2

/-- The length-`K` windows of a read, in order; none when the read is shorter
than `K`. -/
def windows (K : Nat) (r : Read) : List (List Nucl) :=
  if r.length < K then [] else (List.range (r.length - K + 1)).map fun s => (r.drop s).take K

/-- All length-`K` windows of a corpus, over all reads of all streams. -/
def corpusWindows (K : Nat) (streams : List (List Read)) : List (List Nucl) :=
  streams.flatMap fun stream => stream.flatMap (windows K)

/-- The coverage pass seen as the sequence of windows it counts: one `bump` per
key, in order. -/
def bumpKeys (w : Nat) : List (List Nucl) → DeBruijnKMerIndex → Except Abort DeBruijnKMerIndex
  | [], index => .ok index
  | key :: rest, index =>
    match bump w index key with
    | .error e => .error e
    | .ok index1 => bumpKeys w rest index1

/-- The true occurrence count of a key, in the words of the spec: the number of
length-`K` windows over all reads of length at least `K` that equal the key. -/
def occurrences (K : Nat) (streams : List (List Read)) (key : List Nucl) : Nat :=
  (corpusWindows K streams).count key

variable {α : Type} [Inhabited α]

/-- The statement `swap(*I, *J)` on the storage. -/
def swapAt (kmers : List α) (i j : Nat) : List α :=
  (kmers.set i (kmers.getD j default)).set j (kmers.getD i default)

/-- The loop `while (cidx != kidx) { swap(*I, *J); swaps += 1; kidx =
index.raw_seq_idx(*I); }` of `SortUniqueKMers`, on the pair of the storage and
`swaps`; `none` when the loop has not ended after `fuel` tests of its
condition. -/
def swapLoop (raw_seq_idx : α → Nat) (cidx : Nat) : Nat → List α × Nat → Option (List α × Nat)
  | 0, _ => none
  | fuel + 1, st =>
    let kidx := raw_seq_idx (st.1.getD cidx default)
    if cidx ≠ kidx then swapLoop raw_seq_idx cidx fuel (swapAt st.1 cidx kidx, st.2 + 1)
    else some st

/-- The loop `for (I = begin; I != E; ++I)` of `SortUniqueKMers` over the
positions still to visit. -/
def sortFrom (raw_seq_idx : α → Nat) (fuel : Nat) : List Nat → List α × Nat → Option (List α × Nat)
  | [], st => some st
  | cidx :: rest, st =>
    match swapLoop raw_seq_idx cidx fuel st with
    | none => none
    | some st1 => sortFrom raw_seq_idx fuel rest st1

/-- The function `SortUniqueKMers` on the storage `index.kmers`: the storage and
the number of swaps it ends with. -/
def SortUniqueKMers (raw_seq_idx : α → Nat) (fuel : Nat) (kmers : List α) : Option (List α × Nat) :=
  sortFrom raw_seq_idx fuel (List.range kmers.length) (kmers, 0)

/-- The number of k-mers that are not at their own index position. -/
def misplaced (raw_seq_idx : α → Nat) (kmers : List α) : Nat :=
  (List.range kmers.length).countP fun p => decide (raw_seq_idx (kmers.getD p default) ≠ p)

/-! ### Concrete inputs used by the examples -/

/-- Two streams: the reads `ACGCG` and `T` in the first, the read `AC` in the
second. -/
def exampleCorpus : List (List Read) := [[[0, 1, 2, 1, 2], [3]], [[0, 1]]]

/-- An index for `K = 2` over the windows `AC`, `CG`, `GC` of `exampleCorpus`,
with zero counts. -/
def exampleIndex : DeBruijnKMerIndex :=
  ⟨2, fun key => if key = [0, 1] then 0 else if key = [1, 2] then 1 else 2,
    fun idx _ => decide (idx < 3), [0, 0, 0]⟩

/-- An index for `K = 1` with a single entry, for the key `A`, with count 0. -/
def singleIndex : DeBruijnKMerIndex :=
  ⟨1, fun _ => 0, fun _ _ => true, [0]⟩

/-- A corpus of one read: the nucleotide `A` repeated `n` times. -/
def repeatCorpus (n : Nat) : List (List Read) := [[List.replicate n 0]]

/-- An index for `K = 1` with a single entry whose 32-bit count is at its
maximum. -/
def saturatedIndex : DeBruijnKMerIndex :=
  ⟨1, fun _ => 0, fun _ _ => true, [2 ^ 32 - 1]⟩

end Cap

/-! ## Elementary facts about the table operations -/

namespace Hammer

variable {K : Nat} {rnd : ℚ → ℚ}

namespace KMerData

theorem get_of_lt (d : KMerData K) {p : Nat} (h : p < d.size) :
    d.get p = d.data[p] := by
  simp only [get, List.getD_eq_getElem?_getD]
  rw [List.getElem?_eq_getElem h]
  rfl

theorem get_of_le (d : KMerData K) {p : Nat} (h : d.size ≤ p) : d.get p = default := by
  simp only [get, List.getD_eq_getElem?_getD]
  rw [List.getElem?_eq_none h]
  rfl

@[simp] theorem size_setChangeto (d : KMerData K) (j idx : Nat) :
    (d.setChangeto j idx).size = d.size := by
  simp [setChangeto, size]

@[simp] theorem index_setChangeto (d : KMerData K) (j idx : Nat) :
    (d.setChangeto j idx).index = d.index := rfl

theorem get_setChangeto (d : KMerData K) (j idx p : Nat) :
    (d.setChangeto j idx).get p =
      if p = j ∧ p < d.size then { d.get p with changeto := idx } else d.get p := by
  simp only [get, setChangeto, List.getD_eq_getElem?_getD, List.getElem?_modify, size]
  by_cases hp : p < d.data.length
  · rw [List.getElem?_eq_getElem hp]
    by_cases hj : j = p
    · subst hj; simp [hp]
    · have : ¬ p = j := fun h => hj h.symm
      simp [hj, this]
  · have hp' : d.data.length ≤ p := Nat.le_of_not_lt hp
    rw [List.getElem?_eq_none hp']
    simp [hp]

@[simp] theorem kmer_get_setChangeto (d : KMerData K) (j idx p : Nat) :
    ((d.setChangeto j idx).get p).kmer = (d.get p).kmer := by
  rw [get_setChangeto]; split <;> rfl

@[simp] theorem count_get_setChangeto (d : KMerData K) (j idx p : Nat) :
    ((d.setChangeto j idx).get p).count = (d.get p).count := by
  rw [get_setChangeto]; split <;> rfl

@[simp] theorem qual_get_setChangeto (d : KMerData K) (j idx p : Nat) :
    ((d.setChangeto j idx).get p).qual = (d.get p).qual := by
  rw [get_setChangeto]; split <;> rfl

theorem changeto_get_setChangeto (d : KMerData K) (j idx p : Nat) :
    ((d.setChangeto j idx).get p).changeto =
      if p = j ∧ p < d.size then idx else (d.get p).changeto := by
  rw [get_setChangeto]; split <;> rfl

theorem setChangeto_eq_self (d : KMerData K) (j idx : Nat)
    (h : j < d.size → (d.get j).changeto = idx) : d.setChangeto j idx = d := by
  cases d with
  | mk data index =>
    simp only [setChangeto, mk.injEq, and_true]
    apply List.ext_getElem?
    intro p
    rw [List.getElem?_modify]
    by_cases hp : p < data.length
    · rw [List.getElem?_eq_getElem hp]
      by_cases hj : j = p
      · subst hj
        have := h hp
        rw [get_of_lt ⟨data, index⟩ hp] at this
        simp only [Option.map_eq_map, Option.map_some', ↓reduceIte, Option.some.injEq]
        rw [← this]
      · simp [hj]
    · rw [List.getElem?_eq_none (Nat.le_of_not_lt hp)]
      simp

@[simp] theorem size_redirectAll (d : KMerData K) (cluster : List Nat) (idx : Nat) :
    (d.redirectAll cluster idx).size = d.size := by
  unfold redirectAll
  induction cluster generalizing d with
  | nil => rfl
  | cons j rest ih => simp only [List.foldl_cons]; rw [ih]; simp

@[simp] theorem index_redirectAll (d : KMerData K) (cluster : List Nat) (idx : Nat) :
    (d.redirectAll cluster idx).index = d.index := by
  unfold redirectAll
  induction cluster generalizing d with
  | nil => rfl
  | cons j rest ih => simp only [List.foldl_cons]; rw [ih]; simp

@[simp] theorem kmer_get_redirectAll (d : KMerData K) (cluster : List Nat) (idx p : Nat) :
    ((d.redirectAll cluster idx).get p).kmer = (d.get p).kmer := by
  unfold redirectAll
  induction cluster generalizing d with
  | nil => rfl
  | cons j rest ih => simp only [List.foldl_cons]; rw [ih]; simp

@[simp] theorem count_get_redirectAll (d : KMerData K) (cluster : List Nat) (idx p : Nat) :
    ((d.redirectAll cluster idx).get p).count = (d.get p).count := by
  unfold redirectAll
  induction cluster generalizing d with
  | nil => rfl
  | cons j rest ih => simp only [List.foldl_cons]; rw [ih]; simp

@[simp] theorem qual_get_redirectAll (d : KMerData K) (cluster : List Nat) (idx p : Nat) :
    ((d.redirectAll cluster idx).get p).qual = (d.get p).qual := by
  unfold redirectAll
  induction cluster generalizing d with
  | nil => rfl
  | cons j rest ih => simp only [List.foldl_cons]; rw [ih]; simp

theorem changeto_get_redirectAll (d : KMerData K) (cluster : List Nat) (idx p : Nat) :
    ((d.redirectAll cluster idx).get p).changeto =
      if p ∈ cluster ∧ p < d.size then idx else (d.get p).changeto := by
  unfold redirectAll
  induction cluster generalizing d with
  | nil => simp
  | cons j rest ih =>
    simp only [List.foldl_cons]
    rw [ih, size_setChangeto, changeto_get_setChangeto]
    by_cases hp : p < d.size
    · by_cases h1 : p ∈ rest
      · simp [h1, hp]
      · by_cases h2 : p = j
        · subst h2; simp [h1, hp]
        · simp [h1, h2, hp]
    · simp [hp]

theorem redirectAll_eq_self (d : KMerData K) (cluster : List Nat) (idx : Nat)
    (h : ∀ m ∈ cluster, m < d.size → (d.get m).changeto = idx) :
    d.redirectAll cluster idx = d := by
  unfold redirectAll
  induction cluster with
  | nil => rfl
  | cons j rest ih =>
    simp only [List.foldl_cons]
    rw [setChangeto_eq_self d j idx (h j (List.mem_cons_self _ _))]
    exact ih fun m hm => h m (List.mem_cons_of_mem _ hm)

end KMerData

/-! ## The score matrix and the consensus -/

theorem vote_congr (k k1 : KMerStat K) (hc : k1.count = k.count) (hq : k1.qual = k.qual) :
    vote rnd k1 = vote rnd k := by
  simp only [vote, hc, hq]

theorem scoresAt_congr (d e : KMerData K) (kmers : List Nat) (i : Fin K)
    (h : ∀ j ∈ kmers, (e.get j).kmer = (d.get j).kmer ∧ (e.get j).count = (d.get j).count ∧
      (e.get j).qual = (d.get j).qual) :
    scoresAt rnd e kmers i = scoresAt rnd d kmers i := by
  unfold scoresAt
  generalize (fun (_ : Fin 4) (_ : Fin 64) => (0 : ℚ)) = init
  induction kmers generalizing init with
  | nil => rfl
  | cons j rest ih =>
    simp only [List.foldl_cons]
    obtain ⟨h1, h2, h3⟩ := h j (List.mem_cons_self _ _)
    rw [h1, vote_congr (d.get j) (e.get j) h2 h3]
    exact ih (fun m hm => h m (List.mem_cons_of_mem _ hm)) _

theorem center_congr (d e : KMerData K) (kmers : List Nat)
    (h : ∀ j ∈ kmers, (e.get j).kmer = (d.get j).kmer ∧ (e.get j).count = (d.get j).count ∧
      (e.get j).qual = (d.get j).qual) :
    center rnd e kmers = center rnd d kmers := by
  funext i
  simp only [center, scoresAt_congr d e kmers i h]

/-- The cell of the score matrix holds the score of its symbol: the votes of the
members carrying the symbol, added in member order with a rounding after each
addition. -/
theorem scoresAt_eq_score (d : KMerData K) (kmers : List Nat) (i : Fin K)
    (s : HomopolymerRun) : scoresAt rnd d kmers i s.nucl s.len = score rnd d kmers i s := by
  have key : ∀ (init : Scores),
      (kmers.foldl
        (fun scores j =>
          let k := d.get j
          addScore rnd scores (k.kmer i).nucl (k.kmer i).len (vote rnd k))
        init) s.nucl s.len =
      (kmers.filter fun j => (d.get j).kmer i = s).foldl
        (fun acc j => rnd (acc + vote rnd (d.get j))) (init s.nucl s.len) := by
    induction kmers with
    | nil => intro init; rfl
    | cons j rest ih =>
      intro init
      simp only [List.foldl_cons]
      rw [ih]
      by_cases hs : (d.get j).kmer i = s
      · subst hs
        simp [addScore, List.filter_cons]
      · have hne : ¬ (s.nucl = ((d.get j).kmer i).nucl ∧ s.len = ((d.get j).kmer i).len) := by
          rintro ⟨h1, h2⟩
          apply hs
          cases s; cases hk : (d.get j).kmer i
          simp_all
        simp [addScore, List.filter_cons, hs, hne]
  exact key (fun _ _ => 0)

/-- In exact arithmetic the score of a symbol is its weight, the plain sum of
`count × (1 − quality)` over the members carrying it. -/
theorem score_eq_weight_of_exact (hex : ∀ x, rnd x = x) (d : KMerData K) (kmers : List Nat)
    (i : Fin K) (s : HomopolymerRun) : score rnd d kmers i s = weight d kmers i s := by
  obtain rfl : rnd = id := funext hex
  unfold score weight
  have key : ∀ (l : List Nat) (a : ℚ),
      l.foldl (fun acc j => id (acc + vote id (d.get j))) a =
        a + (l.map fun j => ((d.get j).count : ℚ) * (1 - (d.get j).qual)).sum := by
    intro l
    induction l with
    | nil => intro a; simp
    | cons j rest ih =>
      intro a
      rw [List.foldl_cons, ih]
      simp only [vote, id_eq, List.map_cons, List.sum_cons]
      ring
  rw [key]
  simp

theorem weight_perm (d : KMerData K) {l₁ l₂ : List Nat} (h : l₁.Perm l₂) (i : Fin K)
    (s : HomopolymerRun) : weight d l₁ i s = weight d l₂ i s := by
  unfold weight
  exact ((h.filter _).map _).sum_eq

theorem scoresAt_perm_of_exact (hex : ∀ x, rnd x = x) (d : KMerData K) {l₁ l₂ : List Nat}
    (h : l₁.Perm l₂) (i : Fin K) : scoresAt rnd d l₁ i = scoresAt rnd d l₂ i := by
  funext n l
  have h1 : scoresAt rnd d l₁ i n l = score rnd d l₁ i ⟨n, l⟩ := scoresAt_eq_score d l₁ i ⟨n, l⟩
  have h2 : scoresAt rnd d l₂ i n l = score rnd d l₂ i ⟨n, l⟩ := scoresAt_eq_score d l₂ i ⟨n, l⟩
  rw [h1, h2, score_eq_weight_of_exact hex, score_eq_weight_of_exact hex, weight_perm d h]

/-- In exact arithmetic the consensus does not depend on the order of the
members. -/
theorem center_perm_of_exact (hex : ∀ x, rnd x = x) (d : KMerData K) {l₁ l₂ : List Nat}
    (h : l₁.Perm l₂) : center rnd d l₁ = center rnd d l₂ := by
  funext i
  simp only [center, scoresAt_perm_of_exact hex d h i]

/-- A left-to-right scan that replaces the current choice only on a strictly
larger score ends on the first maximum of the scanned list. -/
theorem foldl_first_max {α : Type} (f : α → ℚ) (l : List α) (b : α) :
    ∃ pre post,
      b :: l = pre ++ l.foldl (fun best s => if f best < f s then s else best) b :: post ∧
      (∀ x ∈ pre, f x < f (l.foldl (fun best s => if f best < f s then s else best) b)) ∧
      (∀ x ∈ post, f x ≤ f (l.foldl (fun best s => if f best < f s then s else best) b)) := by
  induction l generalizing b with
  | nil => exact ⟨[], [], rfl, by simp, by simp⟩
  | cons a l ih =>
    simp only [List.foldl_cons]
    by_cases hlt : f b < f a
    · simp only [hlt, ↓reduceIte]
      obtain ⟨pre, post, heq, hpre, hpost⟩ := ih a
      refine ⟨b :: pre, post, by rw [heq]; rfl, ?_, hpost⟩
      have ha : f a ≤ f (l.foldl (fun best s => if f best < f s then s else best) a) := by
        have hmem : a ∈ pre ++ l.foldl (fun best s => if f best < f s then s else best) a :: post := by
          rw [← heq]; exact List.mem_cons_self _ _
        rcases List.mem_append.1 hmem with h | h
        · exact le_of_lt (hpre a h)
        · rcases List.mem_cons.1 h with h | h
          · rw [← h]
          · exact hpost a h
      intro x hx
      rcases List.mem_cons.1 hx with h | h
      · rw [h]; exact lt_of_lt_of_le hlt ha
      · exact hpre x h
    · simp only [hlt, ↓reduceIte]
      obtain ⟨pre, post, heq, hpre, hpost⟩ := ih b
      generalize l.foldl (fun best s => if f best < f s then s else best) b = r at heq hpre hpost ⊢
      cases pre with
      | nil =>
        simp only [List.nil_append, List.cons.injEq] at heq
        refine ⟨[], a :: l, ?_, by simp, ?_⟩
        · simp only [List.nil_append, List.cons.injEq, and_true]; exact heq.1
        · intro x hx
          rcases List.mem_cons.1 hx with h | h
          · rw [h, ← heq.1]; exact le_of_not_lt hlt
          · rw [heq.2] at h; exact hpost x h
      | cons p pre' =>
        simp only [List.cons_append, List.cons.injEq] at heq
        obtain ⟨hb, hl⟩ := heq
        refine ⟨b :: a :: pre', post, by rw [hl]; rfl, ?_, hpost⟩
        have hbr := hpre p (List.mem_cons_self _ _)
        rw [← hb] at hbr
        intro x hx
        rcases List.mem_cons.1 hx with h | h
        · rw [h]; exact hbr
        · rcases List.mem_cons.1 h with h | h
          · rw [h]; exact lt_of_le_of_lt (le_of_not_lt hlt) hbr
          · exact hpre x (List.mem_cons_of_mem _ h)

theorem mem_symbols (s : HomopolymerRun) : s ∈ symbols := by
  cases s with
  | mk n l =>
    simp only [symbols, List.mem_flatMap, List.mem_map, List.mem_finRange, true_and]
    exact ⟨n, l, rfl⟩

theorem symbols_eq_cons : symbols = (⟨0, 0⟩ : HomopolymerRun) :: symbols.tail := by
  decide!

/-- The consensus cell is the first maximum of the matrix in the order of
`symbols`. -/
theorem consensus_first_max (scores : Scores) :
    ∃ pre post, symbols = pre ++ consensus scores :: post ∧
      (∀ x ∈ pre, scores x.nucl x.len < scores (consensus scores).nucl (consensus scores).len) ∧
      (∀ x ∈ post, scores x.nucl x.len ≤ scores (consensus scores).nucl (consensus scores).len) := by
  have hc : consensus scores =
      symbols.tail.foldl
        (fun best s => if scores best.nucl best.len < scores s.nucl s.len then s else best)
        ⟨0, 0⟩ := by
    unfold consensus
    conv_lhs => rw [symbols_eq_cons]
    simp
  have h := foldl_first_max (fun s : HomopolymerRun => scores s.nucl s.len) symbols.tail ⟨0, 0⟩
  rw [← symbols_eq_cons] at h
  rw [hc]
  exact h

end Hammer
namespace Hammer
variable {K : Nat} {rnd : ℚ → ℚ}

/-! ## `push_back` and `assign` -/

namespace KMerData

@[simp] theorem size_push_back (d : KMerData K) (k : KMerStat K) :
    (d.push_back k).1.size = d.size + 1 := by
  simp [push_back, size]

@[simp] theorem snd_push_back (d : KMerData K) (k : KMerStat K) :
    (d.push_back k).2 = d.size := rfl

theorem get_push_back_of_lt (d : KMerData K) (k : KMerStat K) {p : Nat} (h : p < d.size) :
    (d.push_back k).1.get p = d.get p := by
  simp only [get, push_back, List.getD_eq_getElem?_getD]
  rw [List.getElem?_append_left h]

@[simp] theorem get_push_back_size (d : KMerData K) (k : KMerStat K) :
    (d.push_back k).1.get d.size = k := by
  simp only [get, push_back, List.getD_eq_getElem?_getD, size]
  rw [List.getElem?_append_right (Nat.le_refl _)]
  simp

theorem index_push_back (d : KMerData K) (k : KMerStat K) :
    (d.push_back k).1.index = Function.update d.index k.kmer d.size := rfl

/-- Under the lookup contract a key is stored somewhere exactly when it is
stored at the position the lookup answers. -/
theorem WF.eq_seq_idx {d : KMerData K} (h : d.WF) {p : Nat} (hp : p < d.size) {c : HKMer K}
    (hc : (d.get p).kmer = c) : d.seq_idx c = p := by
  rw [← hc]; exact h.lookup p hp

theorem WF.wf_setChangeto {d : KMerData K} (h : d.WF) (j idx : Nat) : (d.setChangeto j idx).WF := by
  constructor
  · intro p hp
    rw [size_setChangeto] at hp
    simpa [seq_idx] using h.lookup p hp
  · intro c
    simpa [seq_idx] using h.inRange c

theorem WF.wf_redirectAll {d : KMerData K} (h : d.WF) (cluster : List Nat) (idx : Nat) :
    (d.redirectAll cluster idx).WF := by
  constructor
  · intro p hp
    rw [size_redirectAll] at hp
    simpa [seq_idx] using h.lookup p hp
  · intro c
    simpa [seq_idx] using h.inRange c

/-- Appending a record whose key is not stored keeps the lookup contract. -/
theorem WF.wf_push_back {d : KMerData K} (h : d.WF) (k : KMerStat K)
    (habs : ∀ p, p < d.size → (d.get p).kmer ≠ k.kmer) : (d.push_back k).1.WF := by
  constructor
  · intro p hp
    rw [size_push_back] at hp
    simp only [seq_idx, index_push_back]
    by_cases hlt : p < d.size
    · rw [get_push_back_of_lt d k hlt, Function.update_noteq (habs p hlt)]
      exact h.lookup p hlt
    · have : p = d.size := by omega
      subst this
      rw [get_push_back_size, Function.update_same]
  · intro c
    simp only [seq_idx, index_push_back, size_push_back]
    by_cases hc : c = k.kmer
    · subst hc; simp
    · rw [Function.update_noteq hc]
      exact Nat.lt_succ_of_lt (h.inRange c)

end KMerData

theorem assign_found (d : KMerData K) (cluster : List Nat)
    (h : (d.get (d.seq_idx (center rnd d cluster))).kmer = center rnd d cluster) :
    assign rnd d cluster = (d.redirectAll cluster (d.seq_idx (center rnd d cluster)), false) := by
  simp [assign, h]

theorem assign_absent (d : KMerData K) (cluster : List Nat)
    (h : (d.get (d.seq_idx (center rnd d cluster))).kmer ≠ center rnd d cluster) :
    assign rnd d cluster =
      ((d.push_back (KMerStat.init 0 (center rnd d cluster) 1 d.size)).1.redirectAll cluster d.size,
        true) := by
  simp [assign, h]

/-- C3. On a table that satisfies the lookup contract and a member list within
range: if the consensus key of the list is the key of an entry (at position
`p`), `assign` returns `false`, appends nothing and sets every member's redirect
to `p`; if no entry has the consensus key, `assign` returns `true`, the table
grows by exactly one entry, which holds the consensus key with count 0 at the
new last position, every earlier entry keeps its key, and every member's
redirect is that new position. -/
theorem assign_spec (d : KMerData K) (hwf : d.WF) (cluster : List Nat)
    (hr : ∀ m ∈ cluster, m < d.size) :
    (∀ p, p < d.size → (d.get p).kmer = center rnd d cluster →
      (assign rnd d cluster).2 = false ∧ (assign rnd d cluster).1.size = d.size ∧
      ∀ m ∈ cluster, ((assign rnd d cluster).1.get m).changeto = p) ∧
    ((∀ p, p < d.size → (d.get p).kmer ≠ center rnd d cluster) →
      (assign rnd d cluster).2 = true ∧ (assign rnd d cluster).1.size = d.size + 1 ∧
      ((assign rnd d cluster).1.get d.size).kmer = center rnd d cluster ∧
      ((assign rnd d cluster).1.get d.size).count = 0 ∧
      (∀ p, p < d.size → ((assign rnd d cluster).1.get p).kmer = (d.get p).kmer) ∧
      ∀ m ∈ cluster, ((assign rnd d cluster).1.get m).changeto = d.size) := by
  constructor
  · intro p hp hc
    have hidx := hwf.eq_seq_idx hp hc
    have hfound : (d.get (d.seq_idx (center rnd d cluster))).kmer = center rnd d cluster := by
      rw [hidx]; exact hc
    rw [assign_found d cluster hfound, hidx]
    refine ⟨rfl, by simp, ?_⟩
    intro m hm
    simp only [KMerData.changeto_get_redirectAll, hm, hr m hm, and_self, ↓reduceIte]
  · intro habs
    have hne := habs _ (hwf.inRange (center rnd d cluster))
    rw [assign_absent d cluster hne]
    refine ⟨rfl, by simp, ?_, ?_, ?_, ?_⟩
    · simp [KMerStat.init]
    · simp [KMerStat.init]
    · intro p hp
      simp [KMerData.get_push_back_of_lt d _ hp]
    · intro m hm
      have hlt : m < d.size + 1 := Nat.lt_succ_of_lt (hr m hm)
      simp only [KMerData.changeto_get_redirectAll, hm, KMerData.size_push_back, hlt, and_self,
        ↓reduceIte]

end Hammer
namespace Hammer
variable {K : Nat} {rnd : ℚ → ℚ}

/-! ## Sorting by count and the number of seeds -/

theorem sortByCount_perm (d : KMerData K) (cluster : List Nat) :
    (sortByCount d cluster).Perm cluster :=
  List.perm_insertionSort _ cluster

theorem sortByCount_pairwise (d : KMerData K) (cluster : List Nat) :
    (sortByCount d cluster).Pairwise fun a b => (d.get a).count ≥ (d.get b).count := by
  haveI : IsTotal Nat (fun a b => ¬ CountCmp d b a) :=
    ⟨fun a b => by simp only [CountCmp, gt_iff_lt, not_lt]; exact Nat.le_total _ _⟩
  haveI : IsTrans Nat (fun a b => ¬ CountCmp d b a) :=
    ⟨fun a b c => by simp only [CountCmp, gt_iff_lt, not_lt]; exact fun h1 h2 => Nat.le_trans h2 h1⟩
  have h := List.sorted_insertionSort (fun a b => ¬ CountCmp d b a) cluster
  refine List.Pairwise.imp ?_ h
  intro a b hab
  simpa [CountCmp] using hab

theorem sortByCount_congr (d e : KMerData K) (cluster : List Nat)
    (h : ∀ j ∈ cluster, (e.get j).count = (d.get j).count) :
    sortByCount e cluster = sortByCount d cluster := by
  unfold sortByCount
  induction cluster with
  | nil => rfl
  | cons a rest ih =>
    simp only [List.insertionSort]
    rw [ih fun j hj => h j (List.mem_cons_of_mem _ hj)]
    have hmem : ∀ j ∈ List.insertionSort (fun a b => ¬ CountCmp d b a) rest, j ∈ rest :=
      fun j hj => (List.perm_insertionSort _ rest).mem_iff.1 hj
    generalize List.insertionSort (fun a b => ¬ CountCmp d b a) rest = l at hmem
    induction l with
    | nil => rfl
    | cons b l ihl =>
      have ih2 := ihl fun j hj => hmem j (List.mem_cons_of_mem _ hj)
      simp only [List.orderedInsert, CountCmp] at ih2 ⊢
      rw [h a (List.mem_cons_self _ _), h b (List.mem_cons_of_mem _ (hmem b (List.mem_cons_self _ _))),
        ih2]

theorem seedCount_eq_countP (d : KMerData K) (cluster : List Nat) :
    seedCount d cluster = cluster.countP fun i => decide ((d.get i).qual < sqrtEps) := by
  have key : ∀ n, cluster.foldl (fun k i => k + if (d.get i).qual < sqrtEps then 1 else 0) n =
      n + cluster.countP fun i => decide ((d.get i).qual < sqrtEps) := by
    induction cluster with
    | nil => intro n; simp
    | cons a rest ih =>
      intro n
      simp only [List.foldl_cons, ih, List.countP_cons, decide_eq_true_eq]
      omega
  simpa [seedCount] using key 0

theorem seedCount_le_length (d : KMerData K) (cluster : List Nat) :
    seedCount d cluster ≤ cluster.length := by
  rw [seedCount_eq_countP]; exact List.countP_le_length _

theorem seedCount_perm (d : KMerData K) {l₁ l₂ : List Nat} (h : l₁.Perm l₂) :
    seedCount d l₁ = seedCount d l₂ := by
  rw [seedCount_eq_countP, seedCount_eq_countP]; exact h.countP_eq _

theorem seedCount_congr (d e : KMerData K) (cluster : List Nat)
    (h : ∀ j ∈ cluster, (e.get j).qual = (d.get j).qual) :
    seedCount e cluster = seedCount d cluster := by
  rw [seedCount_eq_countP, seedCount_eq_countP]
  apply List.countP_congr
  intro j hj
  simp [h j hj]

/-- C7. The first statement of `subcluster` leaves the member list a permutation
of the input in which a member never has a smaller count than a later one (in
particular adjacent members `a`, `b` satisfy `count a ≥ count b`); this sorted
list is the cluster every successful call hands back. -/
theorem subcluster_sorts_by_count (dist : HKMer K → HKMer K → Nat) (d : KMerData K)
    (cluster : List Nat) :
    (sortByCount d cluster).Perm cluster ∧
    (sortByCount d cluster).Pairwise (fun a b => (d.get a).count ≥ (d.get b).count) ∧
    (sortByCount d cluster).Chain' (fun a b => (d.get a).count ≥ (d.get b).count) ∧
    ∀ r, subcluster rnd dist d cluster = .ok r → r.2.1 = sortByCount d cluster := by
  refine ⟨sortByCount_perm d cluster, sortByCount_pairwise d cluster,
    (sortByCount_pairwise d cluster).chain', ?_⟩
  intro r hr
  unfold subcluster at hr
  simp only at hr
  split at hr
  · cases hr; rfl
  · split at hr
    · cases hr
    · cases hr; rfl

end Hammer
namespace Hammer
variable {K : Nat} {rnd : ℚ → ℚ}

/-! ## The seeds -/

theorem scenarioIndex_wf : scenarioIndex.WF := by
  constructor
  · decide!
  · intro c; unfold KMerData.seq_idx scenarioIndex; simp only []; split <;> decide

theorem twoSeedIndex_wf : twoSeedIndex.WF := by
  constructor
  · decide!
  · intro c; unfold KMerData.seq_idx twoSeedIndex; simp only []; split <;> decide

theorem countVsQualIndex_wf : countVsQualIndex.WF := by
  constructor
  · decide!
  · intro c; unfold KMerData.seq_idx countVsQualIndex; simp only []
    split
    · decide
    · split <;> decide

/-- C2, as stated, fails: in `countVsQualIndex` the cluster `[0, 1, 2]` has
`k = 2`, the seeds are the two members of highest count (positions 0 and 1), and
the non-seed at position 2 has error probability 0, strictly below the 1/2 of
the seed at position 0. -/
theorem seeds_not_most_confident :
    1 < seedCount countVsQualIndex (sortByCount countVsQualIndex [0, 1, 2]) ∧
    (subclusters hammingDistance countVsQualIndex (sortByCount countVsQualIndex [0, 1, 2])
      (seedCount countVsQualIndex (sortByCount countVsQualIndex [0, 1, 2]))).toOption =
        some [[0, 2], [1]] ∧
    ¬ ∀ s ∈ (sortByCount countVsQualIndex [0, 1, 2]).take
          (seedCount countVsQualIndex (sortByCount countVsQualIndex [0, 1, 2])),
        ∀ m ∈ (sortByCount countVsQualIndex [0, 1, 2]).drop
          (seedCount countVsQualIndex (sortByCount countVsQualIndex [0, 1, 2])),
        ¬ (countVsQualIndex.get m).qual < (countVsQualIndex.get s).qual := by
  decide!

end Hammer
namespace Hammer
variable {K : Nat} {rnd : ℚ → ℚ}

/-! ## Nearest-seed placement -/

/-- The scan over the seeds `0 .. n-1` either keeps its initial pair (no seed is
closer than the initial bound) or ends on the first seed of minimum distance. -/
theorem closest_scan (g : Nat → Nat) (c0 b0 n : Nat) :
    let r := (List.range n).foldl (fun st j => if g j < st.2 then (j, g j) else st) (c0, b0)
    (r = (c0, b0) ∧ ∀ j, j < n → b0 ≤ g j) ∨
    (r.1 < n ∧ r.2 = g r.1 ∧ g r.1 < b0 ∧ (∀ j, j < n → g r.1 ≤ g j) ∧
      ∀ j, j < r.1 → g r.1 < g j) := by
  induction n with
  | zero => left; simp
  | succ n ih =>
    simp only [List.range_succ, List.foldl_append, List.foldl_cons, List.foldl_nil]
    simp only at ih
    generalize (List.range n).foldl (fun st j => if g j < st.2 then (j, g j) else st) (c0, b0) = r
      at ih
    rcases ih with ⟨hr, hall⟩ | ⟨hlt, heq, hb, hmin, hfirst⟩
    · subst hr
      by_cases hn : g n < b0
      · right
        rw [if_pos hn]
        refine ⟨Nat.lt_succ_self n, rfl, hn, ?_, ?_⟩
        · intro j hj
          rcases Nat.lt_succ_iff_lt_or_eq.1 hj with h | h
          · exact Nat.le_of_lt (Nat.lt_of_lt_of_le hn (hall j h))
          · rw [h]
        · intro j hj
          exact Nat.lt_of_lt_of_le hn (hall j hj)
      · left
        rw [if_neg hn]
        refine ⟨rfl, ?_⟩
        intro j hj
        rcases Nat.lt_succ_iff_lt_or_eq.1 hj with h | h
        · exact hall j h
        · rw [h]; exact Nat.le_of_not_lt hn
    · right
      by_cases hn : g n < r.2
      · rw [if_pos hn]
        rw [heq] at hn
        refine ⟨Nat.lt_succ_self n, rfl, Nat.lt_trans hn hb, ?_, ?_⟩
        · intro j hj
          rcases Nat.lt_succ_iff_lt_or_eq.1 hj with h | h
          · exact Nat.le_of_lt (Nat.lt_of_lt_of_le hn (hmin j h))
          · rw [h]
        · intro j hj
          exact Nat.lt_of_lt_of_le hn (hmin j hj)
      · rw [if_neg hn]
        refine ⟨Nat.lt_succ_of_lt hlt, heq, hb, ?_, hfirst⟩
        intro j hj
        rcases Nat.lt_succ_iff_lt_or_eq.1 hj with h | h
        · exact hmin j h
        · rw [h, ← heq]; exact Nat.le_of_not_lt hn

/-- When some seed is closer than `UINT_MAX`, the inner loop of `subcluster`
ends on the first seed of minimum distance. -/
theorem closest_spec (dist : HKMer K → HKMer K → Nat) (d : KMerData K) (cluster : List Nat)
    (k i : Nat)
    (h : ∃ j, j < k ∧
      dist (d.get (cluster.getD i 0)).kmer (d.get (cluster.getD j 0)).kmer < UINT_MAX) :
    (closest dist d cluster k i).1 < k ∧
    (∀ j, j < k →
      dist (d.get (cluster.getD i 0)).kmer
          (d.get (cluster.getD (closest dist d cluster k i).1 0)).kmer ≤
        dist (d.get (cluster.getD i 0)).kmer (d.get (cluster.getD j 0)).kmer) ∧
    (∀ j, j < (closest dist d cluster k i).1 →
      dist (d.get (cluster.getD i 0)).kmer
          (d.get (cluster.getD (closest dist d cluster k i).1 0)).kmer <
        dist (d.get (cluster.getD i 0)).kmer (d.get (cluster.getD j 0)).kmer) := by
  have hs := closest_scan
    (fun j => dist (d.get (cluster.getD i 0)).kmer (d.get (cluster.getD j 0)).kmer) k UINT_MAX k
  simp only at hs
  change (closest dist d cluster k i = (k, UINT_MAX) ∧ _) ∨
    ((closest dist d cluster k i).1 < k ∧ _) at hs
  rcases hs with ⟨_, hall⟩ | ⟨hlt, _, _, hmin, hfirst⟩
  · obtain ⟨j, hj, hd⟩ := h
    exact absurd (hall j hj) (Nat.not_le.2 hd)
  · exact ⟨hlt, hmin, hfirst⟩

end Hammer
namespace Hammer
variable {K : Nat} {rnd : ℚ → ℚ}

/-- When every placed member finds a seed, the placement loop succeeds and adds,
to each sub-cluster, exactly the members whose nearest seed it is, in order. -/
theorem place_spec (dist : HKMer K → HKMer K → Nat) (d : KMerData K) (cluster : List Nat)
    (k : Nat) (members : List Nat) (idx0 : List (List Nat))
    (h : ∀ i ∈ members, (closest dist d cluster k i).1 < k) :
    ∃ idx, place dist d cluster k members idx0 = .ok idx ∧ idx.length = idx0.length ∧
      ∀ c, idx[c]? = idx0[c]?.map fun sub =>
        sub ++ (members.filter fun i => (closest dist d cluster k i).1 = c).map
          fun i => cluster.getD i 0 := by
  induction members generalizing idx0 with
  | nil =>
    refine ⟨idx0, rfl, rfl, ?_⟩
    intro c
    cases idx0[c]? <;> simp
  | cons i rest ih =>
    have hi := h i (List.mem_cons_self _ _)
    obtain ⟨idx, hok, hlen, hget⟩ :=
      ih (idx0.modify (fun sub => sub ++ [cluster.getD i 0]) (closest dist d cluster k i).1)
        (fun m hm => h m (List.mem_cons_of_mem _ hm))
    refine ⟨idx, ?_, ?_, ?_⟩
    · simp only [place, hi, ↓reduceIte]
      exact hok
    · rw [hlen, List.length_modify]
    · intro c
      rw [hget c, List.getElem?_modify]
      cases idx0[c]? with
      | none => simp
      | some sub =>
        by_cases hc : (closest dist d cluster k i).1 = c
        · simp [List.filter_cons, hc]
        · simp [List.filter_cons, hc]

theorem hammingDistance_le (a b : HKMer K) : hammingDistance a b ≤ K := by
  unfold hammingDistance
  exact (List.length_filter_le _ _).trans (by simp)

/-- C5. For a cluster list and a seed count `k > 1`, with distances below
`UINT_MAX`: the construction of `idx` succeeds and yields `k` sub-clusters;
sub-cluster `c` holds its seed followed by exactly the non-seed members (taken
once, in one pass over the positions `k ..`) whose chosen index is `c`; and the
index chosen for a non-seed member is that of a seed at minimum distance, the
lowest such index when several seeds are at that distance. -/
theorem subcluster_places_nearest (dist : HKMer K → HKMer K → Nat) (d : KMerData K)
    (cluster : List Nat) (k : Nat) (hk : 1 < k) (hd : ∀ x y, dist x y < UINT_MAX) :
    (∃ idx, subclusters dist d cluster k = .ok idx ∧ idx.length = k ∧
      ∀ c, c < k → idx[c]? = some (cluster.getD c 0 ::
        ((List.range' k (cluster.length - k)).filter fun i =>
          (closest dist d cluster k i).1 = c).map fun i => cluster.getD i 0)) ∧
    ∀ i, k ≤ i → i < cluster.length →
      (closest dist d cluster k i).1 < k ∧
      (∀ j, j < k →
        dist (d.get (cluster.getD i 0)).kmer
            (d.get (cluster.getD (closest dist d cluster k i).1 0)).kmer ≤
          dist (d.get (cluster.getD i 0)).kmer (d.get (cluster.getD j 0)).kmer) ∧
      (∀ j, j < (closest dist d cluster k i).1 →
        dist (d.get (cluster.getD i 0)).kmer
            (d.get (cluster.getD (closest dist d cluster k i).1 0)).kmer <
          dist (d.get (cluster.getD i 0)).kmer (d.get (cluster.getD j 0)).kmer) := by
  have hc : ∀ i, (closest dist d cluster k i).1 < k ∧ _ ∧ _ := fun i =>
    closest_spec dist d cluster k i ⟨0, Nat.lt_trans Nat.zero_lt_one hk, hd _ _⟩
  refine ⟨?_, fun i _ _ => hc i⟩
  obtain ⟨idx, hok, hlen, hget⟩ := place_spec dist d cluster k
    (List.range' k (cluster.length - k)) ((List.range k).map fun i => [cluster.getD i 0])
    (fun i _ => (hc i).1)
  refine ⟨idx, hok, by simpa using hlen, ?_⟩
  intro c hck
  rw [hget c]
  simp [List.getElem?_range hck]

theorem subcluster_places_nearest_witness :
    (∃ idx, subclusters hammingDistance countVsQualIndex [0, 1, 2] 2 = .ok idx ∧ idx.length = 2 ∧
      ∀ c, c < 2 → idx[c]? = some (([0, 1, 2] : List Nat).getD c 0 ::
        ((List.range' 2 (([0, 1, 2] : List Nat).length - 2)).filter fun i =>
          (closest hammingDistance countVsQualIndex [0, 1, 2] 2 i).1 = c).map
            fun i => ([0, 1, 2] : List Nat).getD i 0)) ∧
    (closest hammingDistance countVsQualIndex [0, 1, 2] 2 2).1 = 0 :=
  ⟨(subcluster_places_nearest hammingDistance countVsQualIndex [0, 1, 2] 2 (by decide)
      (fun x y => Nat.lt_of_le_of_lt (hammingDistance_le x y) (by decide))).1,
    by decide!⟩

end Hammer
namespace Hammer
variable {K : Nat} {rnd : ℚ → ℚ}

/-! ## What one call of `assign` does to the table -/

namespace KMerData

theorem Extends.refl (d : KMerData K) : d.Extends d :=
  ⟨Nat.le_refl _, fun _ _ => rfl, fun _ _ => rfl, fun _ _ => rfl⟩

theorem Extends.trans {d e f : KMerData K} (h1 : d.Extends e) (h2 : e.Extends f) :
    d.Extends f where
  size_le := Nat.le_trans h1.size_le h2.size_le
  kmer p hp := (h2.kmer p (Nat.lt_of_lt_of_le hp h1.size_le)).trans (h1.kmer p hp)
  count p hp := (h2.count p (Nat.lt_of_lt_of_le hp h1.size_le)).trans (h1.count p hp)
  qual p hp := (h2.qual p (Nat.lt_of_lt_of_le hp h1.size_le)).trans (h1.qual p hp)

theorem Extends.extends_redirectAll (d : KMerData K) (cluster : List Nat) (idx : Nat) :
    d.Extends (d.redirectAll cluster idx) :=
  ⟨by simp, fun _ _ => by simp, fun _ _ => by simp, fun _ _ => by simp⟩

theorem Extends.extends_push_back (d : KMerData K) (k : KMerStat K) : d.Extends (d.push_back k).1 :=
  ⟨by simp, fun p hp => by rw [get_push_back_of_lt d k hp],
    fun p hp => by rw [get_push_back_of_lt d k hp],
    fun p hp => by rw [get_push_back_of_lt d k hp]⟩

theorem Extends.center_eq {d e : KMerData K} (h : d.Extends e) (cluster : List Nat)
    (hr : ∀ m ∈ cluster, m < d.size) : center rnd e cluster = center rnd d cluster :=
  center_congr d e cluster fun j hj => ⟨h.kmer j (hr j hj), h.count j (hr j hj), h.qual j (hr j hj)⟩

end KMerData

/-- A call of `assign` on a resolved cluster changes nothing and returns
`false`. -/
theorem assign_of_resolved (d : KMerData K) (hwf : d.WF) (cluster : List Nat) (idx : Nat)
    (h : Resolved rnd d cluster idx) : assign rnd d cluster = (d, false) := by
  obtain ⟨hlt, hkey, hmem⟩ := h
  have hidx := hwf.eq_seq_idx hlt hkey
  have hfound : (d.get (d.seq_idx (center rnd d cluster))).kmer = center rnd d cluster := by
    rw [hidx]; exact hkey
  rw [assign_found d cluster hfound, hidx,
    KMerData.redirectAll_eq_self d cluster idx fun m hm _ => hmem m hm]

/-- The effect of one call of `assign` on a table that satisfies the lookup
contract, for a member list below `n0 ≤ d.size`, when the entries from `n0` on
redirect to themselves. -/
theorem assign_step (d : KMerData K) (hwf : d.WF) (cluster : List Nat) (n0 : Nat)
    (hn0 : n0 ≤ d.size) (hr : ∀ m ∈ cluster, m < n0)
    (hself : ∀ p, n0 ≤ p → p < d.size → (d.get p).changeto = p) :
    (assign rnd d cluster).1.WF ∧ d.Extends (assign rnd d cluster).1 ∧
    (∀ p, p ∉ cluster → p < d.size →
      ((assign rnd d cluster).1.get p).changeto = (d.get p).changeto) ∧
    (∀ p, n0 ≤ p → p < (assign rnd d cluster).1.size → ((assign rnd d cluster).1.get p).changeto = p) ∧
    (∃ idx, Resolved rnd (assign rnd d cluster).1 cluster idx) ∧
    (assign rnd d cluster).1.size = d.size + (if (assign rnd d cluster).2 then 1 else 0) := by
  have hrd : ∀ m ∈ cluster, m < d.size := fun m hm => Nat.lt_of_lt_of_le (hr m hm) hn0
  by_cases hfound : (d.get (d.seq_idx (center rnd d cluster))).kmer = center rnd d cluster
  · rw [assign_found d cluster hfound]
    have hext := KMerData.Extends.extends_redirectAll d cluster (d.seq_idx (center rnd d cluster))
    refine ⟨hwf.wf_redirectAll _ _, hext, ?_, ?_, ?_, by simp⟩
    · intro p hp _
      simp [KMerData.changeto_get_redirectAll, hp]
    · intro p hp hlt
      have hpc : p ∉ cluster := fun hm => absurd (hr p hm) (Nat.not_lt.2 hp)
      simp only [KMerData.size_redirectAll] at hlt
      simp [KMerData.changeto_get_redirectAll, hpc, hself p hp hlt]
    · refine ⟨d.seq_idx (center rnd d cluster), by simpa using hwf.inRange _, ?_, ?_⟩
      · rw [hext.center_eq cluster hrd]; simpa using hfound
      · intro m hm
        simp [KMerData.changeto_get_redirectAll, hm, hrd m hm]
  · rw [assign_absent d cluster hfound]
    have habs : ∀ p, p < d.size →
        (d.get p).kmer ≠ (KMerStat.init 0 (center rnd d cluster) 1 d.size).kmer := by
      intro p hp hc
      apply hfound
      have := hwf.eq_seq_idx hp hc
      simp only [KMerStat.init] at this hc
      rw [this]; exact hc
    have hext : d.Extends
        ((d.push_back (KMerStat.init 0 (center rnd d cluster) 1 d.size)).1.redirectAll cluster d.size) :=
      (KMerData.Extends.extends_push_back d _).trans (KMerData.Extends.extends_redirectAll _ _ _)
    refine ⟨(hwf.wf_push_back _ habs).wf_redirectAll _ _, hext, ?_, ?_, ?_, by simp⟩
    · intro p hp hlt
      simp [KMerData.changeto_get_redirectAll, hp, KMerData.get_push_back_of_lt d _ hlt]
    · intro p hp hlt
      have hpc : p ∉ cluster := fun hm => absurd (hr p hm) (Nat.not_lt.2 hp)
      simp only [KMerData.size_redirectAll, KMerData.size_push_back] at hlt
      simp only [KMerData.changeto_get_redirectAll, hpc, false_and, ↓reduceIte]
      rcases Nat.lt_succ_iff_lt_or_eq.1 hlt with h | h
      · rw [KMerData.get_push_back_of_lt d _ h]; exact hself p hp h
      · rw [h, KMerData.get_push_back_size]; rfl
    · refine ⟨d.size, by simp, ?_, ?_⟩
      · rw [hext.center_eq cluster hrd]
        simp [KMerStat.init]
      · intro m hm
        have : m < d.size + 1 := Nat.lt_succ_of_lt (hrd m hm)
        simp [KMerData.changeto_get_redirectAll, hm, this]

end Hammer
namespace Hammer
variable {K : Nat} {rnd : ℚ → ℚ}

/-! ## What one call of `subcluster` does to the table -/

theorem mem_sortByCount (d : KMerData K) (cluster : List Nat) (m : Nat) :
    m ∈ sortByCount d cluster ↔ m ∈ cluster :=
  (sortByCount_perm d cluster).mem_iff

theorem assignEach_of_resolved (d : KMerData K) (hwf : d.WF) (cluster : List Nat) (idx : Nat)
    (h : Resolved rnd d cluster idx) (subs : List (List Nat)) (n : Nat) :
    assignEach rnd cluster subs d n = (d, n) := by
  induction subs with
  | nil => rfl
  | cons s rest ih =>
    simp only [assignEach, assign_of_resolved d hwf cluster idx h]
    exact ih

/-- With distances below `UINT_MAX` and at least one seed, the construction of
`idx` succeeds and yields `k` sub-clusters. -/
theorem subclusters_ok (dist : HKMer K → HKMer K → Nat) (d : KMerData K) (cluster : List Nat)
    (k : Nat) (hk : 0 < k) (hd : ∀ x y, dist x y < UINT_MAX) :
    ∃ idx, subclusters dist d cluster k = .ok idx ∧ idx.length = k := by
  obtain ⟨idx, hok, hlen, _⟩ := place_spec dist d cluster k
    (List.range' k (cluster.length - k)) ((List.range k).map fun i => [cluster.getD i 0])
    (fun i _ => (closest_spec dist d cluster k i ⟨0, hk, hd _ _⟩).1)
  exact ⟨idx, hok, by simpa using hlen⟩

/-- On a table that satisfies the lookup contract, with members in range and
distances below `UINT_MAX`, a call of `subcluster` has the effect of a single
`assign` over the whole sorted cluster, whatever the number of seeds. -/
theorem subcluster_eq_assign (dist : HKMer K → HKMer K → Nat) (d : KMerData K) (hwf : d.WF)
    (cluster : List Nat) (hr : ∀ m ∈ cluster, m < d.size) (hd : ∀ x y, dist x y < UINT_MAX) :
    subcluster rnd dist d cluster =
      .ok ((assign rnd d (sortByCount d cluster)).1, sortByCount d cluster,
        if (assign rnd d (sortByCount d cluster)).2 then 1 else 0) := by
  unfold subcluster
  simp only
  by_cases hk : seedCount d (sortByCount d cluster) ≤ 1
  · rw [if_pos hk]
  · rw [if_neg hk]
    obtain ⟨idx, hok, hlen⟩ := subclusters_ok dist d (sortByCount d cluster)
      (seedCount d (sortByCount d cluster)) (by omega) hd
    rw [hok]
    simp only
    cases idx with
    | nil => simp at hlen; omega
    | cons s rest =>
      have hrs : ∀ m ∈ sortByCount d cluster, m < d.size :=
        fun m hm => hr m ((mem_sortByCount d cluster m).1 hm)
      obtain ⟨hwf1, _, _, _, ⟨i, hres⟩, _⟩ :=
        assign_step d hwf (sortByCount d cluster) d.size (Nat.le_refl _) hrs
          (fun p hp hlt => absurd hlt (Nat.not_lt.2 hp))
      simp only [assignEach]
      rw [assignEach_of_resolved _ hwf1 _ i hres]

/-- C6. On a table that satisfies the lookup contract, for a cluster in range in
which at most one member has an error probability below the threshold
(`k ≤ 1`): `subcluster` performs one `assign` over all (sorted) members and
returns its result as 0 or 1; afterwards all members carry the same redirect, a
valid position that holds the consensus key that `center` computes for the
whole (sorted) cluster.  In exact arithmetic that key is the consensus of the
cluster in any order. -/
theorem subcluster_single (rnd : ℚ → ℚ) (dist : HKMer K → HKMer K → Nat) (d : KMerData K)
    (hwf : d.WF) (cluster : List Nat) (hr : ∀ m ∈ cluster, m < d.size)
    (hk : (cluster.countP fun i => decide ((d.get i).qual < sqrtEps)) ≤ 1) :
    subcluster rnd dist d cluster =
      .ok ((assign rnd d (sortByCount d cluster)).1, sortByCount d cluster,
        if (assign rnd d (sortByCount d cluster)).2 then 1 else 0) ∧
    ∃ idx, idx < (assign rnd d (sortByCount d cluster)).1.size ∧
      ((assign rnd d (sortByCount d cluster)).1.get idx).kmer =
        center rnd d (sortByCount d cluster) ∧
      ((∀ x, rnd x = x) →
        ((assign rnd d (sortByCount d cluster)).1.get idx).kmer = center rnd d cluster) ∧
      ∀ m ∈ cluster, ((assign rnd d (sortByCount d cluster)).1.get m).changeto = idx := by
  have hk' : seedCount d (sortByCount d cluster) ≤ 1 := by
    rw [seedCount_perm d (sortByCount_perm d cluster), seedCount_eq_countP]; exact hk
  constructor
  · unfold subcluster
    simp only
    rw [if_pos hk']
  · have hrs : ∀ m ∈ sortByCount d cluster, m < d.size :=
      fun m hm => hr m ((mem_sortByCount d cluster m).1 hm)
    obtain ⟨_, hext, _, _, ⟨i, hlt, hkey, hmem⟩, _⟩ :=
      assign_step d hwf (sortByCount d cluster) d.size (Nat.le_refl _) hrs
        (fun p hp hlt => absurd hlt (Nat.not_lt.2 hp))
    have hkey2 : ((assign rnd d (sortByCount d cluster)).1.get i).kmer =
        center rnd d (sortByCount d cluster) := by
      rw [hkey, hext.center_eq _ hrs]
    refine ⟨i, hlt, hkey2, ?_, fun m hm => hmem m ((mem_sortByCount d cluster m).2 hm)⟩
    intro hex
    rw [hkey2, center_perm_of_exact hex d (sortByCount_perm d cluster)]

end Hammer
namespace Hammer
variable {K : Nat} {rnd : ℚ → ℚ}

/-! ## The loop of `main` over all clusters -/

theorem Resolved.of_extends {d e : KMerData K} (hext : d.Extends e) {cluster : List Nat}
    {idx : Nat} (h : Resolved rnd d cluster idx) (hr : ∀ m ∈ cluster, m < d.size)
    (hch : ∀ m ∈ cluster, (e.get m).changeto = (d.get m).changeto) :
    Resolved rnd e cluster idx := by
  obtain ⟨hlt, hkey, hmem⟩ := h
  refine ⟨Nat.lt_of_lt_of_le hlt hext.size_le, ?_, fun m hm => (hch m hm).trans (hmem m hm)⟩
  rw [hext.kmer idx hlt, hkey, hext.center_eq cluster hr]

theorem forall₂_imp_of_mem {α β : Type} {R S : α → β → Prop} {l₁ : List α} {l₂ : List β}
    (h : List.Forall₂ R l₁ l₂) (himp : ∀ a ∈ l₁, ∀ b, R a b → S a b) : List.Forall₂ S l₁ l₂ := by
  induction h with
  | nil => exact List.Forall₂.nil
  | cons hab _ ih =>
    exact List.Forall₂.cons (himp _ (List.mem_cons_self _ _) _ hab)
      (ih fun a ha b hb => himp a (List.mem_cons_of_mem _ ha) b hb)

/-- The state reached by the loop over pairwise disjoint clusters below `n0`:
the loop succeeds, the lookup contract still holds, old records keep key, count
and quality, positions outside all clusters keep their redirect, entries from
`n0` on redirect to themselves, every cluster comes back sorted and resolved,
and the table has grown by the returned count. -/
theorem subclusterAll_spec (dist : HKMer K → HKMer K → Nat) (hd : ∀ x y, dist x y < UINT_MAX)
    (n0 : Nat) (classes : List (List Nat)) (d : KMerData K) (hwf : d.WF) (hn0 : n0 ≤ d.size)
    (hr : ∀ c ∈ classes, ∀ m ∈ c, m < n0)
    (hself : ∀ p, n0 ≤ p → p < d.size → (d.get p).changeto = p)
    (hdisj : classes.Pairwise List.Disjoint) :
    ∃ dF cls n, subclusterAll rnd dist d classes = .ok (dF, cls, n) ∧ dF.WF ∧ d.Extends dF ∧
      (∀ p, (∀ c ∈ classes, p ∉ c) → p < d.size → (dF.get p).changeto = (d.get p).changeto) ∧
      (∀ p, n0 ≤ p → p < dF.size → (dF.get p).changeto = p) ∧
      List.Forall₂ (fun c cl => cl = sortByCount d c ∧ ∃ idx, Resolved rnd dF cl idx) classes cls ∧
      dF.size = d.size + n := by
  induction classes generalizing d with
  | nil =>
    exact ⟨d, [], 0, rfl, hwf, KMerData.Extends.refl d, fun _ _ _ => rfl, hself,
      List.Forall₂.nil, rfl⟩
  | cons c rest ih =>
    have hrc : ∀ m ∈ c, m < n0 := hr c (List.mem_cons_self _ _)
    have hrs : ∀ m ∈ sortByCount d c, m < n0 :=
      fun m hm => hrc m ((mem_sortByCount d c m).1 hm)
    have hsub := @subcluster_eq_assign K rnd dist d hwf c
      (fun m hm => Nat.lt_of_lt_of_le (hrc m hm) hn0) hd
    obtain ⟨hwf1, hext1, hfr1, hself1, ⟨i, hres1⟩, hsz1⟩ :=
      assign_step d hwf (sortByCount d c) n0 hn0 hrs hself
    have hdr := List.pairwise_cons.1 hdisj
    obtain ⟨dF, cls, n, hrun, hwfF, hextF, hfrF, hselfF, hall, hszF⟩ :=
      ih (assign rnd d (sortByCount d c)).1 hwf1 (Nat.le_trans hn0 hext1.size_le)
        (fun c' hc' => hr c' (List.mem_cons_of_mem _ hc')) hself1 hdr.2
    refine ⟨dF, sortByCount d c :: cls,
      (if (assign rnd d (sortByCount d c)).2 then 1 else 0) + n, ?_, hwfF, hext1.trans hextF,
      ?_, hselfF, ?_, ?_⟩
    · simp only [subclusterAll, hsub, hrun]
    · intro p hp hlt
      have hpc : p ∉ sortByCount d c :=
        fun hm => hp c (List.mem_cons_self _ _) ((mem_sortByCount d c p).1 hm)
      rw [hfrF p (fun c' hc' => hp c' (List.mem_cons_of_mem _ hc'))
        (Nat.lt_of_lt_of_le hlt hext1.size_le), hfr1 p hpc hlt]
    · refine List.Forall₂.cons ⟨rfl, i, ?_⟩ ?_
      · refine hres1.of_extends hextF
          (fun m hm => Nat.lt_of_lt_of_le (hrs m hm) (Nat.le_trans hn0 hext1.size_le)) ?_
        intro m hm
        have hmc : m ∈ c := (mem_sortByCount d c m).1 hm
        exact hfrF m (fun c' hc' hm' => hdr.1 c' hc' hmc hm')
          (Nat.lt_of_lt_of_le (hrs m hm) (Nat.le_trans hn0 hext1.size_le))
      · have hrest : ∀ c' ∈ rest, sortByCount (assign rnd d (sortByCount d c)).1 c' =
            sortByCount d c' := fun c' hc' =>
          sortByCount_congr d _ c' fun j hj =>
            hext1.count j (Nat.lt_of_lt_of_le (hr c' (List.mem_cons_of_mem _ hc') j hj) hn0)
        refine forall₂_imp_of_mem hall ?_
        intro c' hc' cl hcl
        exact ⟨by rw [hcl.1]; exact hrest c' hc', hcl.2⟩
    · rw [hszF, hsz1]; omega

end Hammer
namespace Hammer
variable {K : Nat} {rnd : ℚ → ℚ}

theorem chimeraIndex_wf : chimeraIndex.WF := by
  constructor
  · decide!
  · intro c; unfold KMerData.seq_idx chimeraIndex; simp only []
    split
    · decide
    · split <;> decide

theorem chainIndex_wf : chainIndex.WF := by
  constructor
  · decide!
  · intro c
    unfold KMerData.seq_idx chainIndex
    simp only []
    split
    · assumption
    · decide

theorem hammingDistance_lt_two (x y : HKMer 2) : hammingDistance x y < UINT_MAX :=
  Nat.lt_of_le_of_lt (hammingDistance_le x y) (by decide)

end Hammer
namespace Hammer
variable {K : Nat} {rnd : ℚ → ℚ}

theorem forall₂_exists_of_mem {α β : Type} {R : α → β → Prop} {l₁ : List α} {l₂ : List β}
    (h : List.Forall₂ R l₁ l₂) : ∀ a ∈ l₁, ∃ b, b ∈ l₂ ∧ R a b := by
  induction h with
  | nil => intro a ha; cases ha
  | cons hab _ ih =>
    intro a ha
    rcases List.mem_cons.1 ha with h | h
    · subst h; exact ⟨_, List.mem_cons_self _ _, hab⟩
    · obtain ⟨b, hb, hr⟩ := ih a h
      exact ⟨b, List.mem_cons_of_mem _ hb, hr⟩

/-- C10, amended. On a table that satisfies the lookup contract, for pairwise
disjoint clusters in range and distances below `UINT_MAX`, after the loop over
all clusters: every appended entry redirects to itself; every member's redirect
is a valid position; `redirect(redirect(p)) = redirect(p)` for every member `p`
whose redirect is an appended entry; and, in a cluster with at most one
high-confidence member (`k ≤ 1`), also for every member `p` whose redirect lies
in `p`'s own cluster. -/
theorem redirect_single_hop (rnd : ℚ → ℚ) (dist : HKMer K → HKMer K → Nat) (d : KMerData K)
    (classes : List (List Nat)) (hwf : d.WF) (hr : ∀ c ∈ classes, ∀ m ∈ c, m < d.size)
    (hdisj : classes.Pairwise List.Disjoint) (hd : ∀ x y, dist x y < UINT_MAX) :
    ∃ dF cls n, subclusterAll rnd dist d classes = .ok (dF, cls, n) ∧
      (∀ p, d.size ≤ p → p < dF.size → (dF.get p).changeto = p) ∧
      ∀ c ∈ classes, ∀ p ∈ c,
        (dF.get p).changeto < dF.size ∧
        (d.size ≤ (dF.get p).changeto →
          (dF.get (dF.get p).changeto).changeto = (dF.get p).changeto) ∧
        ((c.countP fun i => decide ((d.get i).qual < sqrtEps)) ≤ 1 →
          (dF.get p).changeto ∈ c →
          (dF.get (dF.get p).changeto).changeto = (dF.get p).changeto) := by
  obtain ⟨dF, cls, n, hrun, _, hext, _, hself, hall, _⟩ :=
    @subclusterAll_spec K rnd dist hd d.size classes d hwf (Nat.le_refl _) hr
      (fun p hp hlt => absurd hlt (Nat.not_lt.2 hp)) hdisj
  refine ⟨dF, cls, n, hrun, hself, ?_⟩
  intro c hc p hp
  obtain ⟨cl, _, hcl, idx, hlt, hkey, hmem⟩ := forall₂_exists_of_mem hall c hc
  have hmemc : ∀ m, m ∈ c → (dF.get m).changeto = idx := fun m hm =>
    hmem m (by rw [hcl]; exact (mem_sortByCount d c m).2 hm)
  rw [hmemc p hp]
  exact ⟨hlt, fun h => hself idx h hlt, fun _ h => hmemc idx h⟩

end Hammer
namespace Hammer
variable {K : Nat} {rnd : ℚ → ℚ}

/-! ## Frame and growth of `assign` and `subcluster` -/

/-- What `assign` leaves alone, on any table: old records keep key, count and
quality, positions outside the member list keep their redirect, and the table
grows by one exactly when `true` is returned. -/
theorem assign_frame (d : KMerData K) (cluster : List Nat) :
    d.Extends (assign rnd d cluster).1 ∧
    (∀ p, p ∉ cluster → p < d.size →
      ((assign rnd d cluster).1.get p).changeto = (d.get p).changeto) ∧
    (assign rnd d cluster).1.size = d.size + (if (assign rnd d cluster).2 then 1 else 0) := by
  by_cases hfound : (d.get (d.seq_idx (center rnd d cluster))).kmer = center rnd d cluster
  · rw [assign_found d cluster hfound]
    refine ⟨KMerData.Extends.extends_redirectAll _ _ _, ?_, by simp⟩
    intro p hp _
    simp [KMerData.changeto_get_redirectAll, hp]
  · rw [assign_absent d cluster hfound]
    refine ⟨(KMerData.Extends.extends_push_back d _).trans
      (KMerData.Extends.extends_redirectAll _ _ _), ?_, by simp⟩
    intro p hp hlt
    simp [KMerData.changeto_get_redirectAll, hp, KMerData.get_push_back_of_lt d _ hlt]

theorem assignEach_frame (cluster : List Nat) (subs : List (List Nat)) (d : KMerData K)
    (n : Nat) :
    d.Extends (assignEach rnd cluster subs d n).1 ∧
    (∀ p, p ∉ cluster → p < d.size →
      ((assignEach rnd cluster subs d n).1.get p).changeto = (d.get p).changeto) ∧
    (assignEach rnd cluster subs d n).1.size + n = d.size + (assignEach rnd cluster subs d n).2 := by
  induction subs generalizing d n with
  | nil => exact ⟨KMerData.Extends.refl d, fun _ _ _ => rfl, rfl⟩
  | cons s rest ih =>
    obtain ⟨hext, hfr, hsz⟩ := assign_frame d cluster
    obtain ⟨hext2, hfr2, hsz2⟩ :=
      ih (assign rnd d cluster).1 (if (assign rnd d cluster).2 then n + 1 else n)
    simp only [assignEach]
    refine ⟨hext.trans hext2, ?_, ?_⟩
    · intro p hp hlt
      rw [hfr2 p hp (Nat.lt_of_lt_of_le hlt hext.size_le), hfr p hp hlt]
    · rw [hsz] at hsz2
      cases hb : (assign rnd d cluster).2
      · simp only [hb, Bool.false_eq_true, ↓reduceIte, Nat.add_zero] at hsz2 ⊢
        exact hsz2
      · simp only [hb, ↓reduceIte] at hsz2 ⊢
        omega

/-- What a successful call of `subcluster` leaves alone, on any table. -/
theorem subcluster_frame (dist : HKMer K → HKMer K → Nat) (d : KMerData K)
    (cluster : List Nat) (r : KMerData K × List Nat × Nat)
    (h : subcluster rnd dist d cluster = .ok r) :
    d.Extends r.1 ∧
    (∀ p, p ∉ cluster → p < d.size → (r.1.get p).changeto = (d.get p).changeto) ∧
    r.1.size = d.size + r.2.2 := by
  unfold subcluster at h
  simp only at h
  have hmem : ∀ p, p ∉ cluster → p ∉ sortByCount d cluster :=
    fun p hp hm => hp ((mem_sortByCount d cluster p).1 hm)
  split at h
  · cases h
    obtain ⟨hext, hfr, hsz⟩ := assign_frame d (sortByCount d cluster)
    exact ⟨hext, fun p hp hlt => hfr p (hmem p hp) hlt, hsz⟩
  · split at h
    · cases h
    · cases h
      rename_i idx _
      obtain ⟨hext, hfr, hsz⟩ := assignEach_frame (sortByCount d cluster) idx d 0
      exact ⟨hext, fun p hp hlt => hfr p (hmem p hp) hlt, by simpa using hsz⟩

theorem subcluster_ok (dist : HKMer K → HKMer K → Nat) (hd : ∀ x y, dist x y < UINT_MAX)
    (d : KMerData K) (cluster : List Nat) : ∃ r, subcluster rnd dist d cluster = .ok r := by
  unfold subcluster
  simp only
  split
  · exact ⟨_, rfl⟩
  · rename_i hk
    obtain ⟨idx, hok, _⟩ := subclusters_ok dist d (sortByCount d cluster)
      (seedCount d (sortByCount d cluster)) (by omega) hd
    rw [hok]
    exact ⟨_, rfl⟩

theorem subclusterAll_size (dist : HKMer K → HKMer K → Nat) (classes : List (List Nat))
    (d : KMerData K) (r : KMerData K × List (List Nat) × Nat)
    (h : subclusterAll rnd dist d classes = .ok r) : r.1.size = d.size + r.2.2 := by
  induction classes generalizing d r with
  | nil => simp only [subclusterAll] at h; cases h; rfl
  | cons c rest ih =>
    simp only [subclusterAll] at h
    split at h
    · cases h
    · rename_i d1 c1 n1 h1
      split at h
      · cases h
      · rename_i d2 rest2 n2 h2
        cases h
        have e1 := (subcluster_frame dist d c _ h1).2.2
        have e2 := ih d1 _ h2
        simp only at e1 e2 ⊢
        omega

end Hammer
namespace Hammer
variable {K : Nat} {rnd : ℚ → ℚ}

/-- C12. On any table, `assign` and every successful call of `subcluster` leave
the table at least as long as before, keep key, count and quality of every entry
that existed before the call, and keep the redirect of every such entry outside
the cluster: the only mutations are appended entries and the redirect fields of
the cluster's members. -/
theorem index_mutated_only_by_append_and_redirect (dist : HKMer K → HKMer K → Nat)
    (d : KMerData K) (cluster : List Nat) :
    (d.size ≤ (assign rnd d cluster).1.size ∧
      ∀ p, p < d.size →
        ((assign rnd d cluster).1.get p).kmer = (d.get p).kmer ∧
        ((assign rnd d cluster).1.get p).count = (d.get p).count ∧
        ((assign rnd d cluster).1.get p).qual = (d.get p).qual ∧
        (p ∉ cluster → ((assign rnd d cluster).1.get p).changeto = (d.get p).changeto)) ∧
    ∀ r, subcluster rnd dist d cluster = .ok r →
      d.size ≤ r.1.size ∧
      ∀ p, p < d.size →
        (r.1.get p).kmer = (d.get p).kmer ∧
        (r.1.get p).count = (d.get p).count ∧
        (r.1.get p).qual = (d.get p).qual ∧
        (p ∉ cluster → (r.1.get p).changeto = (d.get p).changeto) := by
  constructor
  · obtain ⟨hext, hfr, _⟩ := assign_frame d cluster
    exact ⟨hext.size_le, fun p hp =>
      ⟨hext.kmer p hp, hext.count p hp, hext.qual p hp, fun hpc => hfr p hpc hp⟩⟩
  · intro r hr
    obtain ⟨hext, hfr, _⟩ := subcluster_frame dist d cluster r hr
    exact ⟨hext.size_le, fun p hp =>
      ⟨hext.kmer p hp, hext.count p hp, hext.qual p hp, fun hpc => hfr p hpc hp⟩⟩

/-- C19. With distances below `UINT_MAX`, `subcluster` returns, and the value it
returns is the number of entries appended during the call (size after minus
size before); summed by the loop of `main` over any list of clusters, the total
is again the growth of the table. -/
theorem subcluster_returns_appended (dist : HKMer K → HKMer K → Nat)
    (hd : ∀ x y, dist x y < UINT_MAX) (d : KMerData K) (cluster : List Nat) :
    (∃ r, subcluster rnd dist d cluster = .ok r ∧ r.2.2 = r.1.size - d.size ∧
      d.size ≤ r.1.size) ∧
    ∀ classes r, subclusterAll rnd dist d classes = .ok r →
      r.2.2 = r.1.size - d.size ∧ d.size ≤ r.1.size := by
  constructor
  · obtain ⟨r, hr⟩ := subcluster_ok dist hd d cluster
    have h := (subcluster_frame dist d cluster r hr).2.2
    exact ⟨r, hr, by omega, by omega⟩
  · intro classes r hr
    have h := subclusterAll_size dist classes d r hr
    exact ⟨by omega, by omega⟩

/-! ## The consistency check of `subcluster` -/

theorem closest_lt_iff (dist : HKMer K → HKMer K → Nat) (d : KMerData K) (cluster : List Nat)
    (k i : Nat) :
    (closest dist d cluster k i).1 < k ↔
      ∃ j, j < k ∧
        dist (d.get (cluster.getD i 0)).kmer (d.get (cluster.getD j 0)).kmer < UINT_MAX := by
  constructor
  · intro hlt
    have hs := closest_scan
      (fun j => dist (d.get (cluster.getD i 0)).kmer (d.get (cluster.getD j 0)).kmer)
      k UINT_MAX k
    simp only at hs
    change (closest dist d cluster k i = (k, UINT_MAX) ∧ _) ∨
      ((closest dist d cluster k i).1 < k ∧ _ ∧
        dist (d.get (cluster.getD i 0)).kmer
          (d.get (cluster.getD (closest dist d cluster k i).1 0)).kmer < UINT_MAX ∧ _) at hs
    rcases hs with ⟨heq, _⟩ | ⟨h1, _, h3, _⟩
    · rw [heq] at hlt; exact absurd hlt (Nat.lt_irrefl k)
    · exact ⟨_, h1, h3⟩
  · intro h
    exact (closest_spec dist d cluster k i h).1

theorem place_error (dist : HKMer K → HKMer K → Nat) (d : KMerData K) (cluster : List Nat)
    (k : Nat) (members : List Nat) (idx0 : List (List Nat)) (e : Fault)
    (h : place dist d cluster k members idx0 = .error e) :
    ∃ i, i ∈ members ∧ ¬ (closest dist d cluster k i).1 < k := by
  induction members generalizing idx0 with
  | nil => simp [place] at h
  | cons i rest ih =>
    by_cases hi : (closest dist d cluster k i).1 < k
    · simp only [place, hi, ↓reduceIte] at h
      obtain ⟨j, hj, hn⟩ := ih _ h
      exact ⟨j, List.mem_cons_of_mem _ hj, hn⟩
    · exact ⟨i, List.mem_cons_self _ _, hi⟩

/-- C14. For a non-seed member the check `VERIFY(cidx < k)` holds exactly when
some seed is at a distance below `UINT_MAX`.  Hence, if every non-seed member
has such a seed, the construction of `idx` returns without reaching the fatal
branch; and if it fails, some non-seed member has no seed at a distance below
`UINT_MAX`. -/
theorem verify_holds_iff_seed_in_reach (dist : HKMer K → HKMer K → Nat) (d : KMerData K)
    (cluster : List Nat) (k : Nat) :
    (∀ i, (closest dist d cluster k i).1 < k ↔
      ∃ j, j < k ∧
        dist (d.get (cluster.getD i 0)).kmer (d.get (cluster.getD j 0)).kmer < UINT_MAX) ∧
    ((∀ i, k ≤ i → i < cluster.length → ∃ j, j < k ∧
        dist (d.get (cluster.getD i 0)).kmer (d.get (cluster.getD j 0)).kmer < UINT_MAX) →
      ∃ idx, subclusters dist d cluster k = .ok idx) ∧
    (∀ e, subclusters dist d cluster k = .error e →
      ∃ i, k ≤ i ∧ i < cluster.length ∧ ∀ j, j < k →
        UINT_MAX ≤ dist (d.get (cluster.getD i 0)).kmer (d.get (cluster.getD j 0)).kmer) := by
  have hmem : ∀ i, i ∈ List.range' k (cluster.length - k) → k ≤ i ∧ i < cluster.length := by
    intro i hi
    rw [List.mem_range'_1] at hi
    omega
  refine ⟨fun i => closest_lt_iff dist d cluster k i, ?_, ?_⟩
  · intro h
    obtain ⟨idx, hok, _⟩ := place_spec dist d cluster k
      (List.range' k (cluster.length - k)) ((List.range k).map fun i => [cluster.getD i 0])
      (fun i hi => (closest_lt_iff dist d cluster k i).2 (h i (hmem i hi).1 (hmem i hi).2))
    exact ⟨idx, hok⟩
  · intro e he
    obtain ⟨i, hi, hn⟩ := place_error dist d cluster k _ _ e he
    refine ⟨i, (hmem i hi).1, (hmem i hi).2, ?_⟩
    intro j hj
    by_contra hlt
    exact hn ((closest_lt_iff dist d cluster k i).2 ⟨j, hj, Nat.lt_of_not_le hlt⟩)

end Hammer

namespace Hammer

/-- The fatal branch is reachable when the distance function answers `UINT_MAX`
for every seed: the construction of `idx` fails. -/
theorem verify_fails_out_of_reach :
    (subclusters (fun _ _ => UINT_MAX) countVsQualIndex [0, 1, 2] 2).toOption = none := by
  decide!

end Hammer

namespace Hammer

variable {K : Nat} {rnd : ℚ → ℚ}

/-! ## The seeds chosen by `subcluster` -/

theorem getD_mem_take (l : List Nat) (k c : Nat) (hc : c < k) (hk : k ≤ l.length) :
    l.getD c 0 ∈ l.take k := by
  have hlt : c < l.length := Nat.lt_of_lt_of_le hc hk
  have hlt2 : c < (l.take k).length := by rw [List.length_take]; omega
  have h : (l.take k)[c] = l.getD c 0 := by
    rw [List.getElem_take, List.getD_eq_getElem?_getD, List.getElem?_eq_getElem hlt]
    rfl
  rw [← h]
  exact List.getElem_mem hlt2

theorem getD_mem_drop (l : List Nat) (k i : Nat) (hi : k ≤ i) (hlt : i < l.length) :
    l.getD i 0 ∈ l.drop k := by
  have hlt2 : i - k < (l.drop k).length := by rw [List.length_drop]; omega
  have h : (l.drop k)[i - k] = l.getD i 0 := by
    rw [List.getElem_drop, List.getD_eq_getElem?_getD, List.getElem?_eq_getElem (by omega)]
    simp only [Option.getD_some]
    congr 1
    omega
  rw [← h]
  exact List.getElem_mem hlt2

/-- C2, amended. For every cluster with `k > 1` (distances below `UINT_MAX`),
`subcluster` builds `k` sub-clusters whose seeds are the first `k` members of
the count-sorted cluster, the `k` members of highest count: the seed of
sub-cluster `c` is member `c` of the sorted cluster, the other members of the
sub-clusters come from behind the first `k`, and no member behind the first `k`
has a strictly larger count than a seed. -/
theorem seeds_highest_count (dist : HKMer K → HKMer K → Nat) (d : KMerData K)
    (cluster : List Nat) (hk : 1 < seedCount d (sortByCount d cluster))
    (hd : ∀ x y, dist x y < UINT_MAX) :
    ∃ idx, subclusters dist d (sortByCount d cluster) (seedCount d (sortByCount d cluster)) =
        .ok idx ∧
      idx.length = seedCount d (sortByCount d cluster) ∧
      ∀ c, c < seedCount d (sortByCount d cluster) →
        ∃ others, idx[c]? = some ((sortByCount d cluster).getD c 0 :: others) ∧
          (sortByCount d cluster).getD c 0 ∈
            (sortByCount d cluster).take (seedCount d (sortByCount d cluster)) ∧
          (∀ m ∈ others,
            m ∈ (sortByCount d cluster).drop (seedCount d (sortByCount d cluster))) ∧
          ∀ m ∈ (sortByCount d cluster).drop (seedCount d (sortByCount d cluster)),
            ¬ (d.get ((sortByCount d cluster).getD c 0)).count < (d.get m).count := by
  have hle := seedCount_le_length d (sortByCount d cluster)
  obtain ⟨idx, hok, hlen, hget⟩ := place_spec dist d (sortByCount d cluster)
    (seedCount d (sortByCount d cluster))
    (List.range' (seedCount d (sortByCount d cluster))
      ((sortByCount d cluster).length - seedCount d (sortByCount d cluster)))
    ((List.range (seedCount d (sortByCount d cluster))).map
      fun i => [(sortByCount d cluster).getD i 0])
    (fun i _ => (closest_spec dist d (sortByCount d cluster) _ i
      ⟨0, Nat.lt_trans Nat.zero_lt_one hk, hd _ _⟩).1)
  refine ⟨idx, hok, by simpa using hlen, ?_⟩
  intro c hc
  have hsorted := sortByCount_pairwise d cluster
  rw [← List.take_append_drop (seedCount d (sortByCount d cluster)) (sortByCount d cluster)]
    at hsorted
  have hseed := getD_mem_take (sortByCount d cluster) _ c hc hle
  refine ⟨((List.range' (seedCount d (sortByCount d cluster))
      ((sortByCount d cluster).length - seedCount d (sortByCount d cluster))).filter
        fun i => (closest dist d (sortByCount d cluster)
          (seedCount d (sortByCount d cluster)) i).1 = c).map
      (fun i => (sortByCount d cluster).getD i 0), ?_, hseed, ?_, ?_⟩
  · rw [hget c]
    simp only [List.getElem?_map, List.getElem?_range hc, Option.map_some', List.singleton_append]
  · intro m hm
    simp only [List.mem_map, List.mem_filter, List.mem_range'_1] at hm
    obtain ⟨i, ⟨hi, _⟩, rfl⟩ := hm
    exact getD_mem_drop _ _ i hi.1 (by omega)
  · intro m hm
    exact Nat.not_lt.2 ((List.pairwise_append.1 hsorted).2.2 _ hseed m hm)

/-- C2 amended, instance: in `countVsQualIndex` the sub-clusters of `[0, 1, 2]`
are `[0, 2]` and `[1]`, seeded with the members of count 10 and 5. -/
theorem seeds_highest_count_witness :
    (subclusters hammingDistance countVsQualIndex (sortByCount countVsQualIndex [0, 1, 2])
      (seedCount countVsQualIndex (sortByCount countVsQualIndex [0, 1, 2]))).toOption =
        some [[0, 2], [1]] ∧
    ∃ idx, subclusters hammingDistance countVsQualIndex (sortByCount countVsQualIndex [0, 1, 2])
        (seedCount countVsQualIndex (sortByCount countVsQualIndex [0, 1, 2])) = .ok idx ∧
      idx.length = seedCount countVsQualIndex (sortByCount countVsQualIndex [0, 1, 2]) ∧
      ∀ c, c < seedCount countVsQualIndex (sortByCount countVsQualIndex [0, 1, 2]) →
        ∃ others,
          idx[c]? = some ((sortByCount countVsQualIndex [0, 1, 2]).getD c 0 :: others) ∧
          (sortByCount countVsQualIndex [0, 1, 2]).getD c 0 ∈
            (sortByCount countVsQualIndex [0, 1, 2]).take
              (seedCount countVsQualIndex (sortByCount countVsQualIndex [0, 1, 2])) ∧
          (∀ m ∈ others,
            m ∈ (sortByCount countVsQualIndex [0, 1, 2]).drop
              (seedCount countVsQualIndex (sortByCount countVsQualIndex [0, 1, 2]))) ∧
          ∀ m ∈ (sortByCount countVsQualIndex [0, 1, 2]).drop
              (seedCount countVsQualIndex (sortByCount countVsQualIndex [0, 1, 2])),
            ¬ (countVsQualIndex.get ((sortByCount countVsQualIndex [0, 1, 2]).getD c 0)).count <
              (countVsQualIndex.get m).count :=
  ⟨by decide!,
    seeds_highest_count hammingDistance countVsQualIndex [0, 1, 2] (by decide!)
      (fun x y => Nat.lt_of_le_of_lt (hammingDistance_le x y) (by decide))⟩

/-! ## Evaluating `center` and `subcluster` on a concrete table -/

theorem score_eq_zero (d : KMerData K) (kmers : List Nat) (i : Fin K) (s : HomopolymerRun)
    (h : ∀ j ∈ kmers, (d.get j).kmer i ≠ s) : score rnd d kmers i s = 0 := by
  unfold score
  have : (kmers.filter fun j => (d.get j).kmer i = s) = [] := by
    rw [List.filter_eq_nil_iff]
    intro j hj
    simpa using h j hj
  rw [this]
  rfl

theorem consensus_eq_of_strict_max (scores : Scores) (best : HomopolymerRun)
    (h : ∀ s, s ≠ best → scores s.nucl s.len < scores best.nucl best.len) :
    consensus scores = best := by
  obtain ⟨pre, post, heq, hpre, hpost⟩ := consensus_first_max scores
  by_contra hne
  have hlt := h (consensus scores) hne
  have hmem := mem_symbols best
  rw [heq] at hmem
  rcases List.mem_append.1 hmem with hm | hm
  · exact absurd (hpre best hm) (not_lt.2 (le_of_lt hlt))
  · rcases List.mem_cons.1 hm with hm | hm
    · exact hne hm.symm
    · exact absurd (hpost best hm) (not_le.2 hlt)

/-- A key is the consensus of a member list when, at every position, its symbol
has a positive score and every symbol carried by a member is that symbol or has
a strictly smaller score. -/
theorem center_eq_of_strict_max (rnd : ℚ → ℚ) (d : KMerData K) (kmers : List Nat)
    (key : HKMer K)
    (h : ∀ i, 0 < score rnd d kmers i (key i) ∧
      ∀ j ∈ kmers, (d.get j).kmer i = key i ∨
        score rnd d kmers i ((d.get j).kmer i) < score rnd d kmers i (key i)) :
    center rnd d kmers = key := by
  funext i
  apply consensus_eq_of_strict_max
  intro s hne
  rw [scoresAt_eq_score, scoresAt_eq_score]
  by_cases hex : ∃ j ∈ kmers, (d.get j).kmer i = s
  · obtain ⟨j, hj, rfl⟩ := hex
    rcases (h i).2 j hj with hj2 | hj2
    · exact absurd hj2 hne
    · exact hj2
  · rw [score_eq_zero d kmers i s (fun j hj hs => hex ⟨j, hj, hs⟩)]
    exact (h i).1

theorem assign_of_center_found (d : KMerData K) (cluster : List Nat) (key : HKMer K)
    (hc : center rnd d cluster = key) (hf : (d.get (d.seq_idx key)).kmer = key) :
    assign rnd d cluster = (d.redirectAll cluster (d.seq_idx key), false) := by
  subst hc
  exact assign_found d cluster hf

theorem assign_of_center_absent (d : KMerData K) (cluster : List Nat) (key : HKMer K)
    (hc : center rnd d cluster = key) (hf : (d.get (d.seq_idx key)).kmer ≠ key) :
    assign rnd d cluster =
      ((d.push_back (KMerStat.init 0 key 1 d.size)).1.redirectAll cluster d.size, true) := by
  subst hc
  exact assign_absent d cluster hf

/-- A call of `subcluster` with `k ≤ 1` whose consensus key is stored. -/
theorem subcluster_of_center_found (dist : HKMer K → HKMer K → Nat) (d : KMerData K)
    (cluster cl : List Nat) (key : HKMer K) (hs : sortByCount d cluster = cl)
    (hk : seedCount d cl ≤ 1) (hc : center rnd d cl = key)
    (hf : (d.get (d.seq_idx key)).kmer = key) :
    subcluster rnd dist d cluster = .ok (d.redirectAll cl (d.seq_idx key), cl, 0) := by
  unfold subcluster
  simp only
  rw [hs, if_pos hk, assign_of_center_found d cl key hc hf]
  rfl

/-- A call of `subcluster`, for any number of seeds, on a table that satisfies
the lookup contract, whose consensus key is stored. -/
theorem subcluster_of_center_found_wf (dist : HKMer K → HKMer K → Nat) (d : KMerData K)
    (hwf : d.WF) (cluster cl : List Nat) (key : HKMer K) (hr : ∀ m ∈ cluster, m < d.size)
    (hd : ∀ x y, dist x y < UINT_MAX) (hs : sortByCount d cluster = cl)
    (hc : center rnd d cl = key) (hf : (d.get (d.seq_idx key)).kmer = key) :
    subcluster rnd dist d cluster = .ok (d.redirectAll cl (d.seq_idx key), cl, 0) := by
  rw [subcluster_eq_assign dist d hwf cluster hr hd, hs,
    assign_of_center_found d cl key hc hf]
  rfl

/-- A call of `subcluster`, for any number of seeds, on a table that satisfies
the lookup contract, whose consensus key is not stored. -/
theorem subcluster_of_center_absent_wf (dist : HKMer K → HKMer K → Nat) (d : KMerData K)
    (hwf : d.WF) (cluster cl : List Nat) (key : HKMer K) (hr : ∀ m ∈ cluster, m < d.size)
    (hd : ∀ x y, dist x y < UINT_MAX) (hs : sortByCount d cluster = cl)
    (hc : center rnd d cl = key) (hf : (d.get (d.seq_idx key)).kmer ≠ key) :
    subcluster rnd dist d cluster =
      .ok ((d.push_back (KMerStat.init 0 key 1 d.size)).1.redirectAll cl d.size, cl, 1) := by
  rw [subcluster_eq_assign dist d hwf cluster hr hd, hs,
    assign_of_center_absent d cl key hc hf]
  rfl

theorem hammingDistance_lt_max (x y : HKMer K) (hK : K < UINT_MAX) :
    hammingDistance x y < UINT_MAX :=
  Nat.lt_of_le_of_lt (hammingDistance_le x y) hK

end Hammer


/-! # Theorems about the index construction -/
namespace Cap

/-! ## The coverage pass -/

theorem bump_fields (w : Nat) (index index1 : DeBruijnKMerIndex) (key : List Nucl)
    (h : bump w index key = .ok index1) :
    index1.K = index.K ∧ index1.seq_idx = index.seq_idx ∧ index1.contains = index.contains ∧
    index1.data_ = index.data_.modify (fun c => (c + 1) % 2 ^ w) (index.seq_idx key) := by
  unfold bump at h
  simp only at h
  split at h
  · cases h; exact ⟨rfl, rfl, rfl, rfl⟩
  · cases h

theorem bumpKeys_append (w : Nat) (a b : List (List Nucl)) (index : DeBruijnKMerIndex) :
    bumpKeys w (a ++ b) index =
      match bumpKeys w a index with
      | .error e => .error e
      | .ok index1 => bumpKeys w b index1 := by
  induction a generalizing index with
  | nil => rfl
  | cons key rest ih =>
    simp only [List.cons_append, bumpKeys]
    cases bump w index key with
    | error e => rfl
    | ok index1 => exact ih index1

theorem bumpKeys_fields (w : Nat) (keys : List (List Nucl)) (index index1 : DeBruijnKMerIndex)
    (h : bumpKeys w keys index = .ok index1) :
    index1.K = index.K ∧ index1.seq_idx = index.seq_idx ∧ index1.contains = index.contains := by
  induction keys generalizing index with
  | nil => simp only [bumpKeys] at h; cases h; exact ⟨rfl, rfl, rfl⟩
  | cons key rest ih =>
    simp only [bumpKeys] at h
    split at h
    · cases h
    · rename_i i1 h1
      obtain ⟨a, b, c, _⟩ := bump_fields w index i1 key h1
      obtain ⟨a', b', c'⟩ := ih i1 h
      exact ⟨a'.trans a, b'.trans b, c'.trans c⟩

/-- The shift loop counts the next `n` windows after the current one. -/
theorem bumpShifts_eq (w n : Nat) (kmer : LSeq) (index : DeBruijnKMerIndex) :
    bumpShifts w n kmer index =
      bumpKeys w ((List.range n).map fun t => (kmer.seq.drop (kmer.pos + 1 + t)).take kmer.k)
        index := by
  induction n generalizing kmer index with
  | zero => rfl
  | succ n ih =>
    rw [List.range_succ_eq_map]
    simp only [bumpShifts, List.map_cons, List.map_map, bumpKeys, Nat.add_zero]
    have hk : kmer.Shift.key = (kmer.seq.drop (kmer.pos + 1)).take kmer.k := rfl
    rw [hk]
    cases bump w index ((kmer.seq.drop (kmer.pos + 1)).take kmer.k) with
    | error e => rfl
    | ok index1 =>
      simp only
      rw [ih kmer.Shift index1]
      congr 1
      apply List.map_congr_left
      intro t _
      simp only [LSeq.Shift, Function.comp]
      congr 2
      omega

/-- The work on one read of length at least `K` counts its windows in order. -/
theorem read_eq_bumpKeys (w : Nat) (index : DeBruijnKMerIndex) (r : Read)
    (h : ¬ r.length < index.K) :
    (match bump w index (LSeq.start index.K r).key with
      | .error e => .error e
      | .ok index1 => bumpShifts w (r.length - index.K) (LSeq.start index.K r) index1) =
      bumpKeys w (windows index.K r) index := by
  unfold windows
  rw [if_neg h, List.range_succ_eq_map]
  simp only [List.map_cons, List.map_map, bumpKeys]
  have hk : (LSeq.start index.K r).key = (r.drop 0).take index.K := rfl
  rw [hk]
  cases bump w index ((r.drop 0).take index.K) with
  | error e => rfl
  | ok index1 =>
    simp only
    rw [bumpShifts_eq]
    congr 1
    apply List.map_congr_left
    intro t _
    simp only [LSeq.start, Function.comp]
    congr 2
    omega

end Cap
namespace Cap

/-- The read loop ends as the sequence of bumps over the windows of its reads
does: with the same index, or with the same failure. -/
theorem fillLoop_eq_bumpKeys (w : Nat) (stream : List Read) (index : DeBruijnKMerIndex)
    (rl : Nat) :
    (∀ index1, bumpKeys w (stream.flatMap (windows index.K)) index = .ok index1 →
      ∃ rl1, fillLoop w stream index rl = .ok (rl1, index1)) ∧
    (∀ e, bumpKeys w (stream.flatMap (windows index.K)) index = .error e →
      fillLoop w stream index rl = .error e) := by
  induction stream generalizing index rl with
  | nil =>
    constructor
    · intro index1 h
      simp only [List.flatMap_nil, bumpKeys] at h
      cases h
      exact ⟨rl, rfl⟩
    · intro e h
      simp [bumpKeys] at h
  | cons r rest ih =>
    simp only [List.flatMap_cons, bumpKeys_append, fillLoop]
    by_cases hlen : r.length < index.K
    · have hw : windows index.K r = [] := by simp [windows, hlen]
      rw [if_pos hlen, hw]
      simp only [bumpKeys]
      exact ih index (max rl r.length)
    · rw [if_neg hlen]
      have hread := read_eq_bumpKeys w index r hlen
      cases h1 : bump w index (LSeq.start index.K r).key with
      | error e1 =>
        rw [h1] at hread
        simp only at hread ⊢
        rw [← hread]
        simp only
        exact ⟨fun _ h => (by cases h), fun e' h => (by cases h; trivial)⟩
      | ok i1 =>
        rw [h1] at hread
        simp only at hread ⊢
        rw [hread]
        cases hb : bumpKeys w (windows index.K r) index with
        | error e =>
          simp only
          exact ⟨fun _ h => (by cases h), fun e' h => (by cases h; trivial)⟩
        | ok index2 =>
          have hK : index2.K = index.K := (bumpKeys_fields w _ index index2 hb).1
          simp only
          rw [← hK]
          exact ih index2 (max rl r.length)

/-- The coverage loop over all streams ends as the sequence of bumps over all
windows of the corpus does. -/
theorem fillAll_eq_bumpKeys (w : Nat) (streams : List (List Read)) (index : DeBruijnKMerIndex) :
    fillAll w streams index = bumpKeys w (corpusWindows index.K streams) index := by
  induction streams generalizing index with
  | nil => rfl
  | cons stream rest ih =>
    simp only [corpusWindows, List.flatMap_cons, bumpKeys_append, fillAll,
      FillCoverageFromStream]
    obtain ⟨hok, herr⟩ := fillLoop_eq_bumpKeys w stream index 0
    cases hb : bumpKeys w (stream.flatMap (windows index.K)) index with
    | error e => rw [herr e hb]
    | ok index1 =>
      obtain ⟨rl1, h1⟩ := hok index1 hb
      rw [h1]
      simp only
      have hK : index1.K = index.K := (bumpKeys_fields w _ index index1 hb).1
      rw [ih index1, hK]
      rfl

end Cap
namespace Cap

theorem getD_modify_bump (w : Nat) (data : List Nat) (q p : Nat) :
    (data.modify (fun c => (c + 1) % 2 ^ w) p).getD q 0 =
      if p = q ∧ q < data.length then (data.getD q 0 + 1) % 2 ^ w else data.getD q 0 := by
  simp only [List.getD_eq_getElem?_getD, List.getElem?_modify]
  by_cases hq : q < data.length
  · rw [List.getElem?_eq_getElem hq]
    by_cases h : p = q <;> simp [h, hq]
  · rw [List.getElem?_eq_none (Nat.le_of_not_lt hq)]
    simp [hq]

/-- The counts after a sequence of bumps whose presence tests all succeed: the
sequence does not fail, and each count has grown, modulo `2 ^ w`, by the number
of bumped keys that the lookup sends to its position. -/
theorem bumpKeys_counts (w : Nat) (keys : List (List Nucl)) (index : DeBruijnKMerIndex)
    (hcontains : ∀ key ∈ keys, index.contains (index.seq_idx key) key = true)
    (hbound : ∀ q, index.data_.getD q 0 < 2 ^ w) :
    ∃ index1, bumpKeys w keys index = .ok index1 ∧
      index1.data_.length = index.data_.length ∧
      ∀ q, q < index.data_.length →
        index1.data_.getD q 0 =
          (index.data_.getD q 0 + (keys.map index.seq_idx).count q) % 2 ^ w := by
  induction keys generalizing index with
  | nil =>
    refine ⟨index, rfl, rfl, ?_⟩
    intro q _
    simp only [List.map_nil, List.count_nil, Nat.add_zero]
    exact (Nat.mod_eq_of_lt (hbound q)).symm
  | cons key rest ih =>
    have hc := hcontains key (List.mem_cons_self _ _)
    have hb : bump w index key = .ok { index with
        data_ := index.data_.modify (fun c => (c + 1) % 2 ^ w) (index.seq_idx key) } := by
      simp [bump, hc]
    have hpos : 0 < 2 ^ w := Nat.two_pow_pos w
    obtain ⟨index1, hok, hlen, hcnt⟩ := ih
      { index with
        data_ := index.data_.modify (fun c => (c + 1) % 2 ^ w) (index.seq_idx key) }
      (fun k hk => hcontains k (List.mem_cons_of_mem _ hk))
      (by
        intro q
        simp only [getD_modify_bump]
        split
        · exact Nat.mod_lt _ hpos
        · exact hbound q)
    refine ⟨index1, ?_, ?_, ?_⟩
    · simp only [bumpKeys, hb]; exact hok
    · rw [hlen]; simp
    · intro q hq
      rw [hcnt q (by simpa using hq)]
      simp only [getD_modify_bump, List.map_cons, List.count_cons]
      by_cases h : index.seq_idx key = q
      · simp only [h, hq, and_self, ↓reduceIte, beq_self_eq_true]
        rw [Nat.mod_add_mod]
        congr 1
        omega
      · have h' : (index.seq_idx key == q) = false := by simpa using h
        simp [h, h']

/-- Where the lookup is injective on a list of keys, the keys it sends to the
position of one of them are the occurrences of that key. -/
theorem count_map_of_injOn (f : List Nucl → Nat) (keys : List (List Nucl)) (key : List Nucl)
    (hinj : ∀ k ∈ keys, f k = f key → k = key) :
    (keys.map f).count (f key) = keys.count key := by
  induction keys with
  | nil => rfl
  | cons k rest ih =>
    simp only [List.map_cons, List.count_cons]
    rw [ih fun k' hk' => hinj k' (List.mem_cons_of_mem _ hk')]
    by_cases h : k = key
    · simp [h]
    · have h1 : ¬ f k = f key := fun hf => h (hinj k (List.mem_cons_self _ _) hf)
      simp [h, h1]

/-- The keys of `corpusWindows` are the windows observed in the corpus. -/
theorem mem_corpusWindows (K : Nat) (streams : List (List Read)) (key : List Nucl) :
    key ∈ corpusWindows K streams ↔
      ∃ stream ∈ streams, ∃ r ∈ stream, K ≤ r.length ∧
        ∃ s, s + K ≤ r.length ∧ (r.drop s).take K = key := by
  simp only [corpusWindows, List.mem_flatMap, windows]
  constructor
  · rintro ⟨stream, hs, r, hr, hk⟩
    split at hk
    · cases hk
    · rename_i hlen
      simp only [List.mem_map, List.mem_range] at hk
      obtain ⟨s, hs2, rfl⟩ := hk
      exact ⟨stream, hs, r, hr, by omega, s, by omega, rfl⟩
  · rintro ⟨stream, hs, r, hr, hlen, s, hs2, rfl⟩
    refine ⟨stream, hs, r, hr, ?_⟩
    rw [if_neg (by omega)]
    simp only [List.mem_map, List.mem_range]
    exact ⟨s, by omega, rfl⟩

end Cap
namespace Cap

/-- The coverage pass over all streams, on an index whose presence test succeeds
on the windows of the corpus, whose lookup sends them to valid positions and is
injective on them, and whose counts start at zero: the pass returns and every
count is the number of occurrences modulo `2 ^ w`. -/
theorem fillAll_counts (w : Nat) (streams : List (List Read))
    (index : DeBruijnKMerIndex)
    (hcontains : ∀ key ∈ corpusWindows index.K streams,
      index.contains (index.seq_idx key) key = true)
    (hrange : ∀ key ∈ corpusWindows index.K streams, index.seq_idx key < index.data_.length)
    (hinj : ∀ k1 ∈ corpusWindows index.K streams, ∀ k2 ∈ corpusWindows index.K streams,
      index.seq_idx k1 = index.seq_idx k2 → k1 = k2)
    (hzero : ∀ c ∈ index.data_, c = 0) :
    ∃ index1, fillAll w streams index = .ok index1 ∧ index1.seq_idx = index.seq_idx ∧
      ∀ key ∈ corpusWindows index.K streams,
        index1.data_.getD (index1.seq_idx key) 0 = occurrences index.K streams key % 2 ^ w := by
  have hz : ∀ q, index.data_.getD q 0 = 0 := by
    intro q
    rw [List.getD_eq_getElem?_getD]
    by_cases hq : q < index.data_.length
    · rw [List.getElem?_eq_getElem hq]
      exact hzero _ (List.getElem_mem hq)
    · rw [List.getElem?_eq_none (Nat.le_of_not_lt hq)]
      rfl
  obtain ⟨index1, hok, _, hcnt⟩ := bumpKeys_counts w (corpusWindows index.K streams) index
    hcontains (fun q => by rw [hz q]; exact Nat.two_pow_pos w)
  have hidx := (bumpKeys_fields w _ index index1 hok).2.1
  refine ⟨index1, by rw [fillAll_eq_bumpKeys]; exact hok, hidx, ?_⟩
  intro key hkey
  rw [hidx, hcnt _ (hrange key hkey), hz, Nat.zero_add,
    count_map_of_injOn index.seq_idx _ key (fun k hk hf => hinj k hk key hkey hf)]
  rfl

theorem windows_replicate (n : Nat) (hn : 1 ≤ n) :
    windows 1 (List.replicate n (0 : Nucl)) = List.replicate n [0] := by
  unfold windows
  rw [if_neg (by rw [List.length_replicate]; omega), List.length_replicate,
    Nat.sub_add_cancel hn]
  apply List.ext_getElem
  · rw [List.length_map, List.length_range, List.length_replicate]
  · intro s h1 h2
    rw [List.length_map, List.length_range] at h1
    rw [List.getElem_map, List.getElem_range, List.getElem_replicate, List.drop_replicate,
      List.take_replicate, Nat.min_eq_left (by omega)]
    rfl

theorem corpusWindows_repeat (n : Nat) (hn : 1 ≤ n) :
    corpusWindows 1 (repeatCorpus n) = List.replicate n [0] := by
  unfold corpusWindows repeatCorpus
  rw [List.flatMap_singleton, List.flatMap_singleton, windows_replicate n hn]

theorem occurrences_repeat (n : Nat) (hn : 1 ≤ n) : occurrences 1 (repeatCorpus n) [0] = n := by
  unfold occurrences
  rw [corpusWindows_repeat n hn, List.count_replicate_self]

/-- C11, as stated, fails: a corpus of one read, `A` repeated `2 ^ 32` times, and
an index for `K = 1` with a single entry of count 0.  The only window of the
corpus is the key `A`, so the lookup is injective on the corpus; the key occurs
`2 ^ 32` times; after the coverage pass with a 32-bit `count_` the count stored
for it is 0. -/
theorem coverage_count_wraps :
    (∀ key ∈ corpusWindows 1 (repeatCorpus (2 ^ 32)), key = [0]) ∧
    [0] ∈ corpusWindows 1 (repeatCorpus (2 ^ 32)) ∧
    occurrences 1 (repeatCorpus (2 ^ 32)) [0] = 2 ^ 32 ∧
    ∃ index1, fillAll 32 (repeatCorpus (2 ^ 32)) singleIndex = .ok index1 ∧
      index1.data_.getD (index1.seq_idx [0]) 0 = 0 := by
  have hn : 1 ≤ 2 ^ 32 := Nat.one_le_two_pow
  have hall : ∀ key ∈ corpusWindows 1 (repeatCorpus (2 ^ 32)), key = [0] := by
    intro key hkey
    rw [corpusWindows_repeat _ hn] at hkey
    exact List.eq_of_mem_replicate hkey
  have hmem : [0] ∈ corpusWindows 1 (repeatCorpus (2 ^ 32)) := by
    rw [corpusWindows_repeat _ hn]
    exact List.mem_replicate.2 ⟨Nat.pos_iff_ne_zero.1 hn, rfl⟩
  refine ⟨hall, hmem, occurrences_repeat _ hn, ?_⟩
  obtain ⟨index1, hok, _, hcnt⟩ := fillAll_counts 32 (repeatCorpus (2 ^ 32)) singleIndex
    (fun _ _ => rfl) (fun _ _ => Nat.zero_lt_one)
    (fun k1 h1 k2 h2 _ => (hall k1 h1).trans (hall k2 h2).symm)
    (fun c hc => List.eq_of_mem_singleton hc)
  refine ⟨index1, hok, ?_⟩
  have h := hcnt [0] hmem
  have hK : singleIndex.K = 1 := rfl
  rw [h, hK, occurrences_repeat _ hn, Nat.mod_self]

/-- C11, amended. For an index whose presence test succeeds on the windows of the
corpus, whose lookup sends them to valid positions and is injective on them, and
whose counts start at zero: the coverage pass over all streams returns, and for
every key observed at least once the count at `seq_idx key` is the number of
length-`K` windows of the corpus equal to the key, taken modulo `2 ^ w`; it is
that number itself whenever the number is representable in `w` bits. -/
theorem coverage_counts_occurrences (w : Nat) (streams : List (List Read))
    (index : DeBruijnKMerIndex)
    (hcontains : ∀ key ∈ corpusWindows index.K streams,
      index.contains (index.seq_idx key) key = true)
    (hrange : ∀ key ∈ corpusWindows index.K streams, index.seq_idx key < index.data_.length)
    (hinj : ∀ k1 ∈ corpusWindows index.K streams, ∀ k2 ∈ corpusWindows index.K streams,
      index.seq_idx k1 = index.seq_idx k2 → k1 = k2)
    (hzero : ∀ c ∈ index.data_, c = 0) :
    ∃ index1, fillAll w streams index = .ok index1 ∧ index1.seq_idx = index.seq_idx ∧
      ∀ key ∈ corpusWindows index.K streams,
        index1.data_.getD (index1.seq_idx key) 0 = occurrences index.K streams key % 2 ^ w ∧
        (occurrences index.K streams key < 2 ^ w →
          index1.data_.getD (index1.seq_idx key) 0 = occurrences index.K streams key) := by
  obtain ⟨index1, hok, hidx, hcnt⟩ :=
    fillAll_counts w streams index hcontains hrange hinj hzero
  exact ⟨index1, hok, hidx, fun key hkey =>
    ⟨hcnt key hkey, fun hlt => by rw [hcnt key hkey, Nat.mod_eq_of_lt hlt]⟩⟩

/-- C11 amended, instance: in `exampleCorpus` the window `CG` occurs twice (both in
`ACGCG`), and the pass leaves the counts `[2, 2, 1]`. -/
theorem coverage_counts_occurrences_witness :
    (fillAll 32 exampleCorpus exampleIndex).toOption.map (fun i => i.data_) = some [2, 2, 1] ∧
    occurrences 2 exampleCorpus [1, 2] = 2 ∧
    ∃ index1, fillAll 32 exampleCorpus exampleIndex = .ok index1 ∧
      index1.seq_idx = exampleIndex.seq_idx ∧
      ∀ key ∈ corpusWindows exampleIndex.K exampleCorpus,
        index1.data_.getD (index1.seq_idx key) 0 =
          occurrences exampleIndex.K exampleCorpus key % 2 ^ 32 ∧
        (occurrences exampleIndex.K exampleCorpus key < 2 ^ 32 →
          index1.data_.getD (index1.seq_idx key) 0 =
            occurrences exampleIndex.K exampleCorpus key) :=
  ⟨by decide, by decide,
    coverage_counts_occurrences 32 exampleCorpus exampleIndex (by decide) (by decide)
      (by decide) (by decide)⟩

/-- C15, as stated, fails: the single entry of `saturatedIndex` holds the
maximum 32-bit count `2 ^ 32 - 1`; one more occurrence of its key (the read `A`)
leaves the count at 0, not at the maximum. -/
theorem count_wraps_at_maximum :
    saturatedIndex.data_ = [4294967295] ∧
    (FillCoverageFromStream 32 [[0]] saturatedIndex).toOption.map (fun r => r.2.data_) =
      some [0] := by
  decide

/-- C15, amended. With a `count_` of `w` bits, one more occurrence of a key whose
presence test succeeds and whose position is valid changes the count `c` at that
position to `(c + 1) % 2 ^ w`: to `c + 1` while that is representable, and to 0
when `c` is the maximum `2 ^ w - 1`. -/
theorem count_increment_wraps (w : Nat) (index : DeBruijnKMerIndex) (key : List Nucl)
    (hcontains : index.contains (index.seq_idx key) key = true)
    (hrange : index.seq_idx key < index.data_.length) :
    ∃ index1, bump w index key = .ok index1 ∧
      index1.data_.getD (index.seq_idx key) 0 =
        (index.data_.getD (index.seq_idx key) 0 + 1) % 2 ^ w ∧
      (index.data_.getD (index.seq_idx key) 0 + 1 < 2 ^ w →
        index1.data_.getD (index.seq_idx key) 0 = index.data_.getD (index.seq_idx key) 0 + 1) ∧
      (index.data_.getD (index.seq_idx key) 0 + 1 = 2 ^ w →
        index1.data_.getD (index.seq_idx key) 0 = 0) := by
  refine ⟨{ index with
      data_ := index.data_.modify (fun c => (c + 1) % 2 ^ w) (index.seq_idx key) },
    by simp only [bump, hcontains, ↓reduceIte], ?_, ?_, ?_⟩
  · simp [getD_modify_bump, hrange]
  · intro h
    simp only [getD_modify_bump, hrange, and_self, ↓reduceIte]
    exact Nat.mod_eq_of_lt h
  · intro h
    simp only [getD_modify_bump, hrange, and_self, ↓reduceIte]
    rw [h, Nat.mod_self]

/-- C15 amended, instance: the count `2 ^ 32 - 1` of `saturatedIndex` becomes 0. -/
theorem count_increment_wraps_witness :
    ∃ index1, bump 32 saturatedIndex [0] = .ok index1 ∧
      index1.data_.getD (saturatedIndex.seq_idx [0]) 0 =
        (saturatedIndex.data_.getD (saturatedIndex.seq_idx [0]) 0 + 1) % 2 ^ 32 ∧
      (saturatedIndex.data_.getD (saturatedIndex.seq_idx [0]) 0 + 1 < 2 ^ 32 →
        index1.data_.getD (saturatedIndex.seq_idx [0]) 0 =
          saturatedIndex.data_.getD (saturatedIndex.seq_idx [0]) 0 + 1) ∧
      (saturatedIndex.data_.getD (saturatedIndex.seq_idx [0]) 0 + 1 = 2 ^ 32 →
        index1.data_.getD (saturatedIndex.seq_idx [0]) 0 = 0) :=
  count_increment_wraps 32 saturatedIndex [0] (by decide) (by decide)

end Cap
namespace Cap

/-! ## Reads shorter than `K` -/

theorem windows_of_short (K : Nat) (r : Read) (h : r.length < K) : windows K r = [] := by
  simp [windows, h]

theorem countRead_of_short (k : Nat) (storage : List (List Nucl)) (r : Read)
    (h : r.length < k) : countRead k storage r = storage := by
  unfold countRead
  rw [if_pos h]
  split <;> rfl

/-- The index a read loop ends with does not depend on the value of `rl`. -/
theorem fillLoop_snd (w : Nat) (stream : List Read) (index : DeBruijnKMerIndex) (rl : Nat) :
    (fillLoop w stream index rl).map Prod.snd =
      bumpKeys w (stream.flatMap (windows index.K)) index := by
  obtain ⟨hok, herr⟩ := fillLoop_eq_bumpKeys w stream index rl
  cases hb : bumpKeys w (stream.flatMap (windows index.K)) index with
  | error e => rw [herr e hb]; rfl
  | ok index1 =>
    obtain ⟨rl1, h1⟩ := hok index1 hb
    rw [h1]; rfl

/-- C13. A read shorter than `K` (an empty one included, for `K > 0`) is
skipped: it adds nothing to the storage of `CapKMerCounter`, it causes no count
increment and no failure in `FillCoverageFromStream`, and the k-mer set and the
counts of the whole construction are those obtained with the read removed from
its stream. -/
theorem short_read_is_skipped (w : Nat) (index : DeBruijnKMerIndex)
    (pre post : List (List Read)) (s1 s2 : List Read) (r : Read) (h : r.length < index.K) :
    (∀ storage, countRead index.K storage r = storage) ∧
    CapKMerCounter index.K (pre ++ (s1 ++ r :: s2) :: post) =
      CapKMerCounter index.K (pre ++ (s1 ++ s2) :: post) ∧
    (∀ rl, ∃ rl1, fillLoop w (r :: s2) index rl = fillLoop w s2 index rl1) ∧
    (FillCoverageFromStream w (s1 ++ r :: s2) index).map Prod.snd =
      (FillCoverageFromStream w (s1 ++ s2) index).map Prod.snd ∧
    fillAll w (pre ++ (s1 ++ r :: s2) :: post) index =
      fillAll w (pre ++ (s1 ++ s2) :: post) index := by
  have hw := windows_of_short index.K r h
  refine ⟨fun storage => countRead_of_short _ storage r h, ?_, ?_, ?_, ?_⟩
  · simp only [CapKMerCounter, List.foldl_append, List.foldl_cons,
      countRead_of_short _ _ r h]
  · intro rl
    exact ⟨max rl r.length, by simp only [fillLoop, h, ↓reduceIte]⟩
  · simp only [FillCoverageFromStream, fillLoop_snd, List.flatMap_append, List.flatMap_cons, hw,
      List.nil_append]
  · simp only [fillAll_eq_bumpKeys, corpusWindows, List.flatMap_append, List.flatMap_cons, hw,
      List.nil_append]

/-- C13, instance: the read `T` of `exampleCorpus` is shorter than `K = 2`; with
or without it the storage holds the three windows and the counts are
`[2, 2, 1]`. -/
theorem short_read_is_skipped_witness :
    CapKMerCounter 2 [[[0, 1, 2, 1, 2], [3]], [[0, 1]]] = [[2, 1], [1, 2], [0, 1]] ∧
    ((∀ storage, countRead exampleIndex.K storage [3] = storage) ∧
    CapKMerCounter exampleIndex.K ([] ++ ([[0, 1, 2, 1, 2]] ++ [3] :: []) :: [[[0, 1]]]) =
      CapKMerCounter exampleIndex.K ([] ++ ([[0, 1, 2, 1, 2]] ++ []) :: [[[0, 1]]]) ∧
    (∀ rl, ∃ rl1, fillLoop 32 ([3] :: []) exampleIndex rl = fillLoop 32 [] exampleIndex rl1) ∧
    (FillCoverageFromStream 32 ([[0, 1, 2, 1, 2]] ++ [3] :: []) exampleIndex).map Prod.snd =
      (FillCoverageFromStream 32 ([[0, 1, 2, 1, 2]] ++ []) exampleIndex).map Prod.snd ∧
    fillAll 32 ([] ++ ([[0, 1, 2, 1, 2]] ++ [3] :: []) :: [[[0, 1]]]) exampleIndex =
      fillAll 32 ([] ++ ([[0, 1, 2, 1, 2]] ++ []) :: [[[0, 1]]]) exampleIndex) :=
  ⟨by decide,
    short_read_is_skipped 32 exampleIndex [] [[[0, 1]]] [[0, 1, 2, 1, 2]] [] [3] (by decide)⟩

end Cap
namespace Cap

variable {α : Type} [Inhabited α]

/-! ## Arranging the k-mers in index order -/

theorem cons_set_perm (t : List α) (j : Nat) (hj : j < t.length) (a : α) :
    (t.getD j default :: t.set j a).Perm (a :: t) := by
  induction t generalizing j with
  | nil => simp at hj
  | cons c t ih =>
    cases j with
    | zero => exact List.Perm.swap _ _ _
    | succ j =>
      simp only [List.getD_cons_succ, List.set_cons_succ]
      have h1 := ih j (by simpa using hj)
      exact (List.Perm.swap _ _ _).trans (((h1.cons c)).trans (List.Perm.swap _ _ _))

theorem swapAt_perm (l : List α) (i j : Nat) (hi : i < l.length) (hj : j < l.length) :
    (swapAt l i j).Perm l := by
  unfold swapAt
  induction l generalizing i j with
  | nil => simp at hi
  | cons c t ih =>
    cases i with
    | zero =>
      cases j with
      | zero => simp
      | succ j =>
        simp only [List.getD_cons_succ, List.getD_cons_zero, List.set_cons_zero,
          List.set_cons_succ]
        exact cons_set_perm t j (by simpa using hj) c
    | succ i =>
      cases j with
      | zero =>
        simp only [List.getD_cons_succ, List.getD_cons_zero, List.set_cons_zero,
          List.set_cons_succ]
        exact cons_set_perm t i (by simpa using hi) c
      | succ j =>
        simp only [List.getD_cons_succ, List.set_cons_succ]
        exact (ih i j (by simpa using hi) (by simpa using hj)).cons c

@[simp] theorem length_swapAt (l : List α) (i j : Nat) : (swapAt l i j).length = l.length := by
  simp [swapAt]

theorem getD_swapAt (l : List α) (i j p : Nat) (hi : i < l.length) (hj : j < l.length) :
    (swapAt l i j).getD p default =
      if p = j then l.getD i default else if p = i then l.getD j default
      else l.getD p default := by
  simp only [swapAt, List.getD_eq_getElem?_getD, List.getElem?_set, List.length_set]
  by_cases h1 : j = p
  · subst h1; simp [hj]
  · have h1' : ¬ p = j := fun h => h1 h.symm
    by_cases h2 : i = p
    · subst h2; simp [h1, h1', hi]
    · have h2' : ¬ p = i := fun h => h2 h.symm
      simp [h1, h1', h2, h2']

end Cap
namespace Cap

variable {α : Type} [Inhabited α]

theorem getD_mem (l : List α) (p : Nat) (hp : p < l.length) : l.getD p default ∈ l := by
  rw [List.getD_eq_getElem?_getD, List.getElem?_eq_getElem hp]
  exact List.getElem_mem hp

/-- On a storage that the lookup maps bijectively onto its positions, every
k-mer has a valid position. -/
theorem idx_lt_of_bij (f : α → Nat) (l : List α)
    (hbij : (l.map f).Perm (List.range l.length)) (p : Nat) (hp : p < l.length) :
    f (l.getD p default) < l.length := by
  have hmem : f (l.getD p default) ∈ l.map f := List.mem_map_of_mem f (getD_mem l p hp)
  exact List.mem_range.1 (hbij.mem_iff.1 hmem)

/-- On such a storage two positions holding k-mers with the same index position
are the same position. -/
theorem idx_inj_of_bij (f : α → Nat) (l : List α)
    (hbij : (l.map f).Perm (List.range l.length)) (p q : Nat) (hp : p < l.length)
    (hq : q < l.length) (h : f (l.getD p default) = f (l.getD q default)) : p = q := by
  have hnd : (l.map f).Nodup := hbij.nodup_iff.2 (List.nodup_range _)
  have hp' : p < (l.map f).length := by simpa using hp
  have hq' : q < (l.map f).length := by simpa using hq
  have := (@List.Nodup.getElem_inj_iff _ (l.map f) hnd p hp' q hq').1
  apply this
  simp only [List.getElem_map]
  simp only [List.getD_eq_getElem?_getD, List.getElem?_eq_getElem hp,
    List.getElem?_eq_getElem hq, Option.getD_some] at h
  exact h

omit [Inhabited α] in
theorem bij_of_perm (f : α → Nat) {l m : List α} (hperm : m.Perm l)
    (hbij : (l.map f).Perm (List.range l.length)) :
    (m.map f).Perm (List.range m.length) := by
  rw [hperm.length_eq]
  exact (hperm.map f).trans hbij

theorem countP_lt_of_imp {L : List Nat} {p q : Nat → Bool} (himp : ∀ x ∈ L, p x = true → q x = true)
    (k : Nat) (hk : k ∈ L) (hq : q k = true) (hp : p k = false) :
    L.countP p < L.countP q := by
  induction L with
  | nil => cases hk
  | cons a L ih =>
    simp only [List.countP_cons]
    have hle : L.countP p ≤ L.countP q :=
      List.countP_mono_left fun x hx => himp x (List.mem_cons_of_mem _ hx)
    have hstep : (if p a = true then 1 else 0) ≤ (if q a = true then 1 else 0) := by
      have ha := himp a (List.mem_cons_self _ _)
      cases hpa : p a <;> cases hqa : q a <;> simp_all
    rcases List.mem_cons.1 hk with h | h
    · subst h
      have h1 : (if p k = true then 1 else 0) = 0 := by simp [hp]
      have h2 : (if q k = true then 1 else 0) = 1 := by simp [hq]
      omega
    · have := ih (fun x hx => himp x (List.mem_cons_of_mem _ hx)) h
      omega

theorem misplaced_le_length (f : α → Nat) (l : List α) : misplaced f l ≤ l.length := by
  unfold misplaced
  exact (List.countP_le_length _).trans (by simp)

/-- One swap of the loop: the storage stays a rearrangement, k-mers at their own
position stay there, and fewer k-mers are misplaced than before. -/
theorem swap_step (f : α → Nat) (l : List α) (hbij : (l.map f).Perm (List.range l.length))
    (i : Nat) (hi : i < l.length) (hne : i ≠ f (l.getD i default)) :
    (swapAt l i (f (l.getD i default))).Perm l ∧
    (∀ p, p < l.length → f (l.getD p default) = p →
      f ((swapAt l i (f (l.getD i default))).getD p default) = p) ∧
    misplaced f (swapAt l i (f (l.getD i default))) < misplaced f l := by
  have hk : f (l.getD i default) < l.length := idx_lt_of_bij f l hbij i hi
  have hkbad : f (l.getD (f (l.getD i default)) default) ≠ f (l.getD i default) := by
    intro h
    exact hne (idx_inj_of_bij f l hbij _ _ hk hi h).symm
  have hgood : ∀ p, p < l.length → f (l.getD p default) = p →
      f ((swapAt l i (f (l.getD i default))).getD p default) = p := by
    intro p _ hp
    have h1 : p ≠ f (l.getD i default) := by
      intro h
      rw [h] at hp
      exact hkbad hp
    have h2 : p ≠ i := by
      intro h
      rw [h] at hp
      exact hne hp.symm
    rw [getD_swapAt l i _ p hi hk, if_neg h1, if_neg h2]
    exact hp
  refine ⟨swapAt_perm l i _ hi hk, hgood, ?_⟩
  unfold misplaced
  rw [length_swapAt]
  apply countP_lt_of_imp _ (f (l.getD i default)) (List.mem_range.2 hk)
  · simpa using hkbad
  · rw [getD_swapAt l i _ _ hi hk]
    simp
  · intro x hx hbad
    simp only [ne_eq, decide_not, Bool.not_eq_eq_eq_not, Bool.not_true,
      decide_eq_false_iff_not] at hbad ⊢
    intro hx2
    exact hbad (hgood x (List.mem_range.1 hx) hx2)

end Cap
namespace Cap

variable {α : Type} [Inhabited α]

/-- The inner loop at position `i`, given more fuel than there are misplaced
k-mers: it ends, the storage is a rearrangement of what it was, position `i`
holds its own k-mer, k-mers already at their position stay, and each swap is
paid for by at least one k-mer fewer misplaced. -/
theorem swapLoop_spec (f : α → Nat) (i fuel : Nat) (l : List α) (n : Nat)
    (hbij : (l.map f).Perm (List.range l.length)) (hi : i < l.length)
    (hfuel : misplaced f l < fuel) :
    ∃ out sw, swapLoop f i fuel (l, n) = some (out, sw) ∧ out.Perm l ∧
      f (out.getD i default) = i ∧
      (∀ p, p < l.length → f (l.getD p default) = p → f (out.getD p default) = p) ∧
      sw + misplaced f out ≤ n + misplaced f l := by
  induction fuel generalizing l n with
  | zero => exact absurd hfuel (Nat.not_lt_zero _)
  | succ fuel ih =>
    by_cases hne : i ≠ f (l.getD i default)
    · obtain ⟨hperm, hgood, hlt⟩ := swap_step f l hbij i hi hne
      have hlen : (swapAt l i (f (l.getD i default))).length = l.length := length_swapAt _ _ _
      obtain ⟨out, sw, hrun, hp2, hi2, hgood2, hsw⟩ :=
        ih (swapAt l i (f (l.getD i default))) (n + 1) (bij_of_perm f hperm hbij)
          (by rw [hlen]; exact hi) (by omega)
      refine ⟨out, sw, ?_, hp2.trans hperm, hi2, ?_, by omega⟩
      · simp only [swapLoop]
        rw [if_pos hne]
        exact hrun
      · intro p hp hpg
        exact hgood2 p (by rw [hlen]; exact hp) (hgood p hp hpg)
    · refine ⟨l, n, ?_, List.Perm.refl _, ?_, fun _ _ h => h, Nat.le_refl _⟩
      · simp only [swapLoop]
        rw [if_neg hne]
      · exact (not_not.1 hne).symm

/-- The outer loop over a list of valid positions, with fuel above the length of
the storage. -/
theorem sortFrom_spec (f : α → Nat) (fuel : Nat) (ps : List Nat) (l : List α) (n : Nat)
    (hbij : (l.map f).Perm (List.range l.length)) (hps : ∀ p ∈ ps, p < l.length)
    (hfuel : l.length < fuel) :
    ∃ out sw, sortFrom f fuel ps (l, n) = some (out, sw) ∧ out.Perm l ∧
      (∀ p ∈ ps, f (out.getD p default) = p) ∧
      (∀ p, p < l.length → f (l.getD p default) = p → f (out.getD p default) = p) ∧
      sw + misplaced f out ≤ n + misplaced f l := by
  induction ps generalizing l n with
  | nil =>
    exact ⟨l, n, rfl, List.Perm.refl _, fun _ h => (by cases h), fun _ _ h => h, Nat.le_refl _⟩
  | cons c rest ih =>
    have hc := hps c (List.mem_cons_self _ _)
    obtain ⟨m, sw1, hrun1, hperm1, hc1, hgood1, hsw1⟩ :=
      swapLoop_spec f c fuel l n hbij hc
        (Nat.lt_of_le_of_lt (misplaced_le_length f l) hfuel)
    have hlen : m.length = l.length := hperm1.length_eq
    obtain ⟨out, sw, hrun2, hperm2, hrest, hgood2, hsw2⟩ :=
      ih m sw1 (bij_of_perm f hperm1 hbij)
        (fun p hp => by rw [hlen]; exact hps p (List.mem_cons_of_mem _ hp))
        (by rw [hlen]; exact hfuel)
    refine ⟨out, sw, ?_, hperm2.trans hperm1, ?_, ?_, by omega⟩
    · simp only [sortFrom, hrun1]
      exact hrun2
    · intro p hp
      rcases List.mem_cons.1 hp with h | h
      · rw [h]
        exact hgood2 c (by rw [hlen]; exact hc) hc1
      · exact hrest p h
    · intro p hp hpg
      exact hgood2 p (by rw [hlen]; exact hp) (hgood1 p hp hpg)

/-- C17. For a storage of `n` k-mers that `raw_seq_idx` maps bijectively onto the
positions `0 .. n-1`, `SortUniqueKMers` (with fuel above `n` for each inner
loop) returns a rearrangement of the storage in which every k-mer sits at its
own index position, `raw_seq_idx(kmers[i]) = i` for every `i < n`; it performs
at most `n` swaps. -/
theorem SortUniqueKMers_arranges (raw_seq_idx : α → Nat) (fuel : Nat) (kmers : List α)
    (hbij : (kmers.map raw_seq_idx).Perm (List.range kmers.length))
    (hfuel : kmers.length < fuel) :
    ∃ out swaps, SortUniqueKMers raw_seq_idx fuel kmers = some (out, swaps) ∧
      out.Perm kmers ∧ out.length = kmers.length ∧
      (∀ i, i < kmers.length → raw_seq_idx (out.getD i default) = i) ∧
      swaps ≤ kmers.length := by
  obtain ⟨out, sw, hrun, hperm, hall, _, hsw⟩ :=
    sortFrom_spec raw_seq_idx fuel (List.range kmers.length) kmers 0 hbij
      (fun p hp => List.mem_range.1 hp) hfuel
  refine ⟨out, sw, hrun, hperm, hperm.length_eq, fun i hi => hall i (List.mem_range.2 hi), ?_⟩
  have := misplaced_le_length raw_seq_idx kmers
  omega

/-- C17, instance: the storage `[2, 0, 3, 1, 4]` with the identity as lookup is
arranged to `[0, 1, 2, 3, 4]` in 3 swaps. -/
theorem SortUniqueKMers_arranges_witness :
    SortUniqueKMers (fun x : Nat => x) 6 [2, 0, 3, 1, 4] = some ([0, 1, 2, 3, 4], 3) ∧
    ∃ out swaps, SortUniqueKMers (fun x : Nat => x) 6 [2, 0, 3, 1, 4] = some (out, swaps) ∧
      out.Perm [2, 0, 3, 1, 4] ∧ out.length = ([2, 0, 3, 1, 4] : List Nat).length ∧
      (∀ i, i < ([2, 0, 3, 1, 4] : List Nat).length → (fun x : Nat => x) (out.getD i default) = i) ∧
      swaps ≤ ([2, 0, 3, 1, 4] : List Nat).length :=
  ⟨by decide,
    SortUniqueKMers_arranges (fun x : Nat => x) 6 [2, 0, 3, 1, 4] (by decide) (by decide)⟩

/-- C18. For a storage of `n` k-mers that `raw_seq_idx` maps bijectively onto the
positions `0 .. n-1` and every position `cidx < n`: a swap of the inner loop
leaves strictly fewer k-mers misplaced, and the loop `while (cidx != kidx)`
ends within as many swaps as there are misplaced k-mers (one more test of its
condition than that suffices), with the k-mer of `cidx` in place. -/
theorem swap_loop_terminates (raw_seq_idx : α → Nat) (kmers : List α) (cidx swaps : Nat)
    (hbij : (kmers.map raw_seq_idx).Perm (List.range kmers.length))
    (hc : cidx < kmers.length) :
    (cidx ≠ raw_seq_idx (kmers.getD cidx default) →
      misplaced raw_seq_idx (swapAt kmers cidx (raw_seq_idx (kmers.getD cidx default))) <
        misplaced raw_seq_idx kmers) ∧
    ∃ out swaps1,
      swapLoop raw_seq_idx cidx (misplaced raw_seq_idx kmers + 1) (kmers, swaps) =
        some (out, swaps1) ∧
      raw_seq_idx (out.getD cidx default) = cidx ∧
      swaps1 + misplaced raw_seq_idx out ≤ swaps + misplaced raw_seq_idx kmers ∧
      swaps1 - swaps ≤ misplaced raw_seq_idx kmers := by
  constructor
  · intro hne
    exact (swap_step raw_seq_idx kmers hbij cidx hc hne).2.2
  · obtain ⟨out, sw, hrun, _, hi, _, hsw⟩ :=
      swapLoop_spec raw_seq_idx cidx (misplaced raw_seq_idx kmers + 1) kmers swaps hbij hc
        (Nat.lt_succ_self _)
    exact ⟨out, sw, hrun, hi, hsw, by omega⟩

/-- C18, instance: at position 0 of `[2, 0, 3, 1, 4]` (4 k-mers misplaced) the
loop ends after 3 swaps. -/
theorem swap_loop_terminates_witness :
    misplaced (fun x : Nat => x) [2, 0, 3, 1, 4] = 4 ∧
    swapLoop (fun x : Nat => x) 0 5 ([2, 0, 3, 1, 4], 0) = some ([0, 1, 2, 3, 4], 3) ∧
    ∃ out swaps1,
      swapLoop (fun x : Nat => x) 0 (misplaced (fun x : Nat => x) [2, 0, 3, 1, 4] + 1)
        ([2, 0, 3, 1, 4], 0) = some (out, swaps1) ∧
      (fun x : Nat => x) (out.getD 0 default) = 0 ∧
      swaps1 + misplaced (fun x : Nat => x) out ≤
        0 + misplaced (fun x : Nat => x) [2, 0, 3, 1, 4] ∧
      swaps1 - 0 ≤ misplaced (fun x : Nat => x) [2, 0, 3, 1, 4] :=
  ⟨by decide, by decide,
    (swap_loop_terminates (fun x : Nat => x) [2, 0, 3, 1, 4] 0 0 (by decide) (by decide)).2⟩

end Cap
namespace Hammer

/-! ## The examples, evaluated in double arithmetic -/

theorem scenario_center : center roundDouble scenarioIndex [0, 1] = keyAAAA :=
  center_eq_of_strict_max roundDouble scenarioIndex [0, 1] keyAAAA (by decide!)

theorem twoSeed_center : center roundDouble twoSeedIndex [0, 1] = keyAAAA :=
  center_eq_of_strict_max roundDouble twoSeedIndex [0, 1] keyAAAA (by decide!)

theorem twoSeed_center_second : center roundDouble twoSeedIndex [1] = keyAAAT :=
  center_eq_of_strict_max roundDouble twoSeedIndex [1] keyAAAT (by decide!)

theorem chimera_center :
    center roundDouble chimeraIndex [2, 0, 1] = fun i => if i = 0 then runA else runT :=
  center_eq_of_strict_max roundDouble chimeraIndex [2, 0, 1] _ (by decide!)

/-- The call of `subcluster` on the cluster `[0, 1, 2]` of `chimeraIndex`: the
consensus `AT` is appended at position 3. -/
theorem chimera_run :
    subcluster roundDouble hammingDistance chimeraIndex [0, 1, 2] =
      .ok ((chimeraIndex.push_back (KMerStat.init 0 (fun i => if i = 0 then runA else runT) 1
        chimeraIndex.size)).1.redirectAll [2, 0, 1] chimeraIndex.size, [2, 0, 1], 1) :=
  subcluster_of_center_absent_wf hammingDistance chimeraIndex chimeraIndex_wf [0, 1, 2] [2, 0, 1]
    _ (by decide) hammingDistance_lt_two (by decide!) chimera_center (by decide!)

theorem chain_center_first :
    center roundDouble chainIndex [0, 1, 2, 4, 5, 6, 8, 9, 10, 3, 7] =
      key3 ⟨0, 1⟩ ⟨1, 1⟩ ⟨0, 1⟩ :=
  center_eq_of_strict_max roundDouble chainIndex _ _ (by decide!)

theorem chain_run_first :
    subcluster roundDouble hammingDistance chainIndex [0, 1, 2, 3, 4, 5, 6, 7, 8, 9, 10] =
      .ok (chainIndex.redirectAll [0, 1, 2, 4, 5, 6, 8, 9, 10, 3, 7]
        (chainIndex.seq_idx (key3 ⟨0, 1⟩ ⟨1, 1⟩ ⟨0, 1⟩)),
        [0, 1, 2, 4, 5, 6, 8, 9, 10, 3, 7], 0) :=
  subcluster_of_center_found hammingDistance chainIndex _ _ _ (by decide!) (by decide!)
    chain_center_first (by decide!)

theorem chain_center_second :
    center roundDouble
      (chainIndex.redirectAll [0, 1, 2, 4, 5, 6, 8, 9, 10, 3, 7]
        (chainIndex.seq_idx (key3 ⟨0, 1⟩ ⟨1, 1⟩ ⟨0, 1⟩))) [12, 11] =
      key3 ⟨0, 1⟩ ⟨1, 1⟩ ⟨2, 3⟩ :=
  center_eq_of_strict_max roundDouble _ _ _ (by decide!)

theorem chain_run_second :
    subcluster roundDouble hammingDistance
      (chainIndex.redirectAll [0, 1, 2, 4, 5, 6, 8, 9, 10, 3, 7]
        (chainIndex.seq_idx (key3 ⟨0, 1⟩ ⟨1, 1⟩ ⟨0, 1⟩))) [11, 12] =
      .ok (((chainIndex.redirectAll [0, 1, 2, 4, 5, 6, 8, 9, 10, 3, 7]
        (chainIndex.seq_idx (key3 ⟨0, 1⟩ ⟨1, 1⟩ ⟨0, 1⟩))).redirectAll [12, 11]
          ((chainIndex.redirectAll [0, 1, 2, 4, 5, 6, 8, 9, 10, 3, 7]
            (chainIndex.seq_idx (key3 ⟨0, 1⟩ ⟨1, 1⟩ ⟨0, 1⟩))).seq_idx
              (key3 ⟨0, 1⟩ ⟨1, 1⟩ ⟨2, 3⟩))),
        [12, 11], 0) :=
  subcluster_of_center_found hammingDistance _ _ _ _ (by decide!) (by decide!)
    chain_center_second (by decide!)

/-- The loop of `main` over the two clusters of `chainIndex`. -/
theorem chain_run :
    subclusterAll roundDouble hammingDistance chainIndex chainClasses =
      .ok (((chainIndex.redirectAll [0, 1, 2, 4, 5, 6, 8, 9, 10, 3, 7]
        (chainIndex.seq_idx (key3 ⟨0, 1⟩ ⟨1, 1⟩ ⟨0, 1⟩))).redirectAll [12, 11]
          ((chainIndex.redirectAll [0, 1, 2, 4, 5, 6, 8, 9, 10, 3, 7]
            (chainIndex.seq_idx (key3 ⟨0, 1⟩ ⟨1, 1⟩ ⟨0, 1⟩))).seq_idx
              (key3 ⟨0, 1⟩ ⟨1, 1⟩ ⟨2, 3⟩))),
        [[0, 1, 2, 4, 5, 6, 8, 9, 10, 3, 7], [12, 11]], 0) := by
  simp only [chainClasses, subclusterAll, chain_run_first, chain_run_second]

/-- C1, evaluated: in `twoSeedIndex` the cluster `[0, 1]` has two seeds and the
sub-clusters are `[0]` and `[1]`.  The consensus of sub-cluster `[1]` is the key
`AAAT`, stored at position 1, but `subcluster` leaves both redirects at 0, the
position of the consensus `AAAA` of the whole cluster. -/
theorem subcluster_redirects_to_whole_cluster_consensus :
    seedCount twoSeedIndex (sortByCount twoSeedIndex [0, 1]) = 2 ∧
    (subclusters hammingDistance twoSeedIndex (sortByCount twoSeedIndex [0, 1]) 2).toOption =
      some [[0], [1]] ∧
    center roundDouble twoSeedIndex [1] = keyAAAT ∧
    twoSeedIndex.seq_idx (center roundDouble twoSeedIndex [1]) = 1 ∧
    (twoSeedIndex.get 1).kmer = center roundDouble twoSeedIndex [1] ∧
    center roundDouble twoSeedIndex [0, 1] = keyAAAA ∧
    outcome (subcluster roundDouble hammingDistance twoSeedIndex [0, 1]) = some ([0, 0], 2, 0) := by
  refine ⟨by decide!, by decide!, twoSeed_center_second, ?_, ?_, twoSeed_center, ?_⟩
  · rw [twoSeed_center_second]; decide!
  · rw [twoSeed_center_second]; decide!
  · rw [subcluster_of_center_found_wf hammingDistance twoSeedIndex twoSeedIndex_wf [0, 1] [0, 1]
      keyAAAA (by decide) (fun x y => hammingDistance_lt_max x y (by decide)) (by decide!)
      twoSeed_center (by decide!)]
    decide!

/-- C3, instance: on the scenario table the consensus of `[0, 1]` is the key at
position 0, so nothing is appended and both redirects become 0. -/
theorem assign_spec_witness :
    scenarioIndex.WF ∧ (assign roundDouble scenarioIndex [0, 1]).2 = false ∧
      (assign roundDouble scenarioIndex [0, 1]).1.size = 2 ∧
      ∀ m ∈ [0, 1], ((assign roundDouble scenarioIndex [0, 1]).1.get m).changeto = 0 :=
  ⟨scenarioIndex_wf,
    (assign_spec scenarioIndex scenarioIndex_wf [0, 1] (by decide)).1 0 (by decide)
      (by rw [scenario_center]; decide!)⟩

/-- C6, instance: the scenario cluster given as `[1, 0]` has no member below the
threshold; `subcluster` performs one `assign` over the sorted cluster. -/
theorem subcluster_single_witness :
    scenarioIndex.WF ∧
    subcluster roundDouble hammingDistance scenarioIndex [1, 0] =
      .ok ((assign roundDouble scenarioIndex (sortByCount scenarioIndex [1, 0])).1,
        sortByCount scenarioIndex [1, 0],
        if (assign roundDouble scenarioIndex (sortByCount scenarioIndex [1, 0])).2 then 1 else 0) :=
  ⟨scenarioIndex_wf,
    (subcluster_single roundDouble hammingDistance scenarioIndex scenarioIndex_wf [1, 0]
      (by decide) (by decide!)).1⟩

/-- C8. The scenario: `AAAA` (count 100, error probability 0.01) and `AAAT`
(count 3, error probability 0.4) in one cluster.  At the last position `A` has
weight `100 × 0.99 = 99` against `3 × 0.6 = 9/5` for `T`; the consensus key is
`AAAA`; `subcluster` sets both redirects to position 0, where `AAAA` is stored,
keeps the table at 2 entries and returns 0, in either order of the cluster. -/
theorem scenario_consensus_AAAA (dist : HKMer 4 → HKMer 4 → Nat) :
    weight scenarioIndex [0, 1] 3 runA = 99 ∧ weight scenarioIndex [0, 1] 3 runT = 9 / 5 ∧
    center roundDouble scenarioIndex [0, 1] = keyAAAA ∧ (scenarioIndex.get 0).kmer = keyAAAA ∧
    outcome (subcluster roundDouble dist scenarioIndex [0, 1]) = some ([0, 0], 2, 0) ∧
    outcome (subcluster roundDouble dist scenarioIndex [1, 0]) = some ([0, 0], 2, 0) := by
  refine ⟨by decide!, by decide!, scenario_center, by decide!, ?_, ?_⟩
  · rw [subcluster_of_center_found dist scenarioIndex [0, 1] [0, 1] keyAAAA (by decide!)
      (by decide!) scenario_center (by decide!)]
    decide!
  · rw [subcluster_of_center_found dist scenarioIndex [1, 0] [0, 1] keyAAAA (by decide!)
      (by decide!) scenario_center (by decide!)]
    decide!

/-- C10, as stated, fails: `chainIndex` with its two Hamming clusters
`chainClasses`.  The table satisfies the lookup contract; every key of the first
cluster is at Hamming distance more than 1 from every key of the second; inside
each cluster every key but the first is at distance 1 from an earlier key; no
entry is below the high-confidence threshold.  The consensus of the first
cluster is `ACA`, stored at position 11, which belongs to the second cluster,
whose consensus is `ACGGG` at position 12.  After the loop the members of the
first cluster redirect to 11, and 11 redirects to 12. -/
theorem redirect_chain_of_length_two :
    chainIndex.WF ∧
    (∀ i ∈ [0, 1, 2, 3, 4, 5, 6, 7, 8, 9, 10], ∀ j ∈ [11, 12],
      1 < hammingDistance (chainIndex.get i).kmer (chainIndex.get j).kmer) ∧
    (∀ c ∈ chainClasses, ∀ t ∈ c, t = c.headD 0 ∨
      ∃ s ∈ c, s < t ∧ hammingDistance (chainIndex.get s).kmer (chainIndex.get t).kmer = 1) ∧
    (∀ c ∈ chainClasses, c.countP (fun i => decide ((chainIndex.get i).qual < sqrtEps)) = 0) ∧
    outcome (subclusterAll roundDouble hammingDistance chainIndex chainClasses) =
      some ([11, 11, 11, 11, 11, 11, 11, 11, 11, 11, 11, 12, 12], 13, 0) ∧
    (subclusterAll roundDouble hammingDistance chainIndex chainClasses).toOption.map
      (fun r => singleHop r.1) = some false := by
  refine ⟨chainIndex_wf, by decide!, by decide!, by decide!, ?_, ?_⟩
  · rw [chain_run]; decide!
  · rw [chain_run]; decide!

/-- C10 amended, instance: in `chainIndex` nothing is appended, every redirect is
a valid position, and the members 11 and 12 of the second cluster redirect to
12, a member of their own cluster, which redirects to itself. -/
theorem redirect_single_hop_witness :
    chainIndex.WF ∧
    ∃ dF cls n,
      subclusterAll roundDouble hammingDistance chainIndex chainClasses = .ok (dF, cls, n) ∧
      (∀ p, chainIndex.size ≤ p → p < dF.size → (dF.get p).changeto = p) ∧
      ∀ c ∈ chainClasses, ∀ p ∈ c,
        (dF.get p).changeto < dF.size ∧
        (chainIndex.size ≤ (dF.get p).changeto →
          (dF.get (dF.get p).changeto).changeto = (dF.get p).changeto) ∧
        ((c.countP fun i => decide ((chainIndex.get i).qual < sqrtEps)) ≤ 1 →
          (dF.get p).changeto ∈ c →
          (dF.get (dF.get p).changeto).changeto = (dF.get p).changeto) :=
  ⟨chainIndex_wf,
    redirect_single_hop roundDouble hammingDistance chainIndex chainClasses chainIndex_wf
      (by decide) (by simp [chainClasses, List.Disjoint])
      (fun x y => hammingDistance_lt_max x y (by decide))⟩

/-- C19, instance: on `chimeraIndex` the cluster `[0, 1, 2]` has two seeds, its
consensus is appended once, the table grows from 3 to 4 entries and the call
returns 1. -/
theorem subcluster_returns_appended_witness :
    outcome (subcluster roundDouble hammingDistance chimeraIndex [0, 1, 2]) =
      some ([3, 3, 3, 3], 4, 1) ∧
    ∃ r, subcluster roundDouble hammingDistance chimeraIndex [0, 1, 2] = .ok r ∧
      r.2.2 = r.1.size - chimeraIndex.size ∧ chimeraIndex.size ≤ r.1.size :=
  ⟨by rw [chimera_run]; decide!,
    (subcluster_returns_appended hammingDistance hammingDistance_lt_two chimeraIndex
      [0, 1, 2]).1⟩

end Hammer
